import Mathlib

/-!
Verification of the ci-helper repository's natural-language specification
against a shallow embedding of its Go source.

Conventions of the embedding:
* Go strings are modelled as `List Char` (`GoStr`) where character-level
  manipulation matters, and as Lean `String` where only concatenation and
  equality are used.
* Go's `strings.ReplaceAll` / `strings.Split` / `strings.Index` etc. are
  re-implemented over `GoStr` with the same leftmost, non-overlapping
  semantics.  Functions that shrink their argument by a pattern length use
  explicit fuel (initialised to the string length, which is always enough)
  so that every definition is structurally recursive and kernel-reducible.
* Go's Unicode-aware `strings.ToLower` / `strings.TrimSpace` are modelled
  on their ASCII behaviour, which is the behaviour exercised by the header
  tokens and escape sequences the specification speaks about.
* Filesystem and network effects are passed in as explicit oracle
  functions; fallible Go calls are modelled with `Except`/`Option`.
-/

namespace CiHelper

/-- Go strings, modelled as lists of characters. -/
abbrev GoStr := List Char

/-- One step list of Go's `strings.ReplaceAll(s, pat, rep)` with explicit fuel.
Each recursive call removes at least one character of `s`, so fuel `s.length`
is always sufficient (`goReplaceAll` below supplies it). -/
def replaceAllFuel (pat rep : GoStr) : Nat → GoStr → GoStr
  | _, [] => []
  | 0, s => s
  | fuel + 1, c :: rest =>
    if pat ≠ [] ∧ pat.isPrefixOf (c :: rest) then
      rep ++ replaceAllFuel pat rep fuel (List.drop pat.length (c :: rest))
    else
      c :: replaceAllFuel pat rep fuel rest

/-- Model of Go `strings.ReplaceAll(s, pat, rep)`: replace every leftmost,
non-overlapping occurrence of `pat` in `s` by `rep`. -/
def goReplaceAll (s pat rep : GoStr) : GoStr :=
  replaceAllFuel pat rep s.length s

/-- `escapePropertyValue` from `internal/repo/partnerdirectory.go`:
`\ ↦ \\`, then newline `↦ \n`, then carriage return `↦ \r`. -/
def escapePropertyValue (value : GoStr) : GoStr :=
  let value := goReplaceAll value ['\\'] ['\\', '\\']
  let value := goReplaceAll value ['\n'] ['\\', 'n']
  let value := goReplaceAll value ['\r'] ['\\', 'r']
  value

/-- `unescapePropertyValue` from `internal/repo/partnerdirectory.go`:
`\n ↦` newline, then `\r ↦` carriage return, then `\\ ↦ \`. -/
def unescapePropertyValue (value : GoStr) : GoStr :=
  let value := goReplaceAll value ['\\', 'n'] ['\n']
  let value := goReplaceAll value ['\\', 'r'] ['\r']
  let value := goReplaceAll value ['\\', '\\'] ['\\']
  value

/-- C1: the escape/unescape round-trip promised by the spec fails on the code
for the two-character value `\n` (a backslash followed by the letter `n`):
escaping yields `\\n`, and unescaping that rewrites the trailing `\n` digram
to a newline before collapsing the doubled backslash, returning a backslash
followed by a newline instead of the original value. -/
theorem c1_roundtrip_fails_on_backslash_n :
    unescapePropertyValue (escapePropertyValue ['\\', 'n']) = ['\\', '\n'] ∧
      ['\\', '\n'] ≠ ['\\', 'n'] := by
  exact ⟨by decide, by decide⟩

/-- A single operation of an OData batch request
(`internal/httpclnt/batch.go`, `BatchOperation`). -/
structure BatchOperation where
  Method : String
  Path : String
  Body : List Nat
  ContentID : String
  Headers : List (String × String)
  IsQuery : Bool
deriving DecidableEq, Repr

/-- One parsed per-operation response (`BatchOperationResponse`); the `Error`
field of the Go struct is modelled as an optional message. -/
structure BatchOperationResponse where
  ContentID : String
  StatusCode : Nat
  Headers : List (String × String)
  Body : List Nat
  Error : Option String
deriving DecidableEq, Repr

/-- The response of a whole batch request (`BatchResponse`). -/
structure BatchResponse where
  Operations : List BatchOperationResponse
deriving DecidableEq, Repr

/-- The effectful stages of `BatchRequest.Execute` that follow the empty-check:
building the multipart body, POSTing it, and parsing the multipart response.
Each is an oracle so that the embedding can count what was invoked. -/
structure BatchEnv where
  buildBody : List BatchOperation → Except String (List Nat)
  sendRequest : List Nat → Except String (Nat × List Nat)
  parseResponse : Nat × List Nat → Except String BatchResponse

/-- Counters of observable effects during one `Execute` call. -/
structure ExecEffects where
  bodiesBuilt : Nat
  requestsIssued : Nat
deriving DecidableEq, Repr

/-- `BatchRequest.Execute` (`internal/httpclnt/batch.go`): an empty operation
list short-circuits to an empty, error-free response; otherwise the body is
built, POSTed, the HTTP status checked against 200/202, and the multipart
response parsed. -/
def batchExecute (ops : List BatchOperation) (env : BatchEnv) :
    Except String BatchResponse × ExecEffects :=
  if ops.length = 0 then
    (Except.ok ⟨[]⟩, ⟨0, 0⟩)
  else
    match env.buildBody ops with
    | Except.error e => (Except.error ("failed to build batch body: " ++ e), ⟨1, 0⟩)
    | Except.ok body =>
      match env.sendRequest body with
      | Except.error e => (Except.error ("batch request failed: " ++ e), ⟨1, 1⟩)
      | Except.ok (status, raw) =>
        if status ≠ 202 ∧ status ≠ 200 then
          (Except.error ("batch request failed with status " ++ toString status), ⟨1, 1⟩)
        else
          match env.parseResponse (status, raw) with
          | Except.error e => (Except.error e, ⟨1, 1⟩)
          | Except.ok resp => (Except.ok resp, ⟨1, 1⟩)

/-- C10: executing a batch request whose operation list is empty returns an
empty operation list and no error, building no body and issuing no HTTP
request, whatever the body builder, transport and parser would do. -/
theorem c10_empty_batch_short_circuits (env : BatchEnv) :
    batchExecute [] env =
      (Except.ok ⟨[]⟩, ⟨0, 0⟩) := by
  rfl

/-- An artifact entry of the deployment manifest (`internal/deploy` models). -/
structure Artifact where
  Id : String
  ArtifactDir : String
  DisplayName : String
  ArtifactType : String
  Sync : Bool
  Deploy : Bool
deriving DecidableEq, Repr

/-- A package entry of the deployment manifest (`models.Package`). -/
structure Package where
  ID : String
  PackageDir : String
  DisplayName : String
  Description : String
  ShortText : String
  Sync : Bool
  Deploy : Bool
  Artifacts : List Artifact
deriving DecidableEq, Repr

/-- A deployment manifest (`models.DeployConfig`). -/
structure DeployConfig where
  DeploymentPrefix : String
  Packages : List Package
deriving DecidableEq, Repr

/-- One loaded manifest with its provenance (`deploy.DeployConfigFile`). -/
structure DeployConfigFile where
  Config : DeployConfig
  Source : String
  FileName : String
  Order : Nat
deriving DecidableEq, Repr

/-- The duplicate-ID error message `MergeConfigs` formats with
`fmt.Errorf("duplicate package ID '%s' found in %s (already exists from %s)", …)`. -/
def dupPackageMsg (fullyQualifiedID fileName existingSource : String) : String :=
  "duplicate package ID '" ++ fullyQualifiedID ++ "' found in " ++ fileName ++
    " (already exists from " ++ existingSource ++ ")"

/-- Lookup in the association-list model of Go's `map[string]string`
(`packageMap`); entries are only ever inserted for absent keys, so the list
order never matters. -/
def mapLookup (m : List (String × String)) (k : String) : Option String :=
  match m with
  | [] => none
  | (k', v) :: rest => if k' = k then some v else mapLookup rest k

/-- The inner package loop of `MergeConfigs`
(`internal/deploy/config_loader.go`): apply the source's prefix to the
package ID and display name, detect a duplicate fully-qualified ID against
`packageMap`, apply the prefix to the artifact IDs, record the ID's source
file, and append the merged package. -/
def mergePackages (configPrefix fileName : String) :
    List Package → List (String × String) → List Package →
    Except String (List (String × String) × List Package)
  | [], packageMap, acc => Except.ok (packageMap, acc)
  | pkg :: rest, packageMap, acc =>
    let fullyQualifiedID :=
      if configPrefix ≠ "" then configPrefix ++ pkg.ID else pkg.ID
    let mergedPkg :=
      if configPrefix ≠ "" then
        { pkg with
            ID := fullyQualifiedID
            DisplayName :=
              if pkg.DisplayName ≠ "" then configPrefix ++ " - " ++ pkg.DisplayName
              else configPrefix ++ " - " ++ pkg.ID }
      else pkg
    match mapLookup packageMap fullyQualifiedID with
    | some existingSource =>
      Except.error (dupPackageMsg fullyQualifiedID fileName existingSource)
    | none =>
      let mergedPkg :=
        if configPrefix ≠ "" then
          { mergedPkg with
              Artifacts := mergedPkg.Artifacts.map fun a =>
                { a with Id := configPrefix ++ "_" ++ a.Id } }
        else mergedPkg
      mergePackages configPrefix fileName rest
        ((fullyQualifiedID, fileName) :: packageMap) (acc ++ [mergedPkg])

/-- The outer loop of `MergeConfigs` over the loaded config files; the
merged manifest carries an empty deployment prefix. -/
def mergeConfigsGo :
    List DeployConfigFile → List (String × String) → List Package →
    Except String DeployConfig
  | [], _, acc => Except.ok ⟨"", acc⟩
  | configFile :: rest, packageMap, acc =>
    match mergePackages configFile.Config.DeploymentPrefix configFile.FileName
        configFile.Config.Packages packageMap acc with
    | Except.error e => Except.error e
    | Except.ok (packageMap', acc') => mergeConfigsGo rest packageMap' acc'

/-- `MergeConfigs` from `internal/deploy/config_loader.go`. -/
def MergeConfigs (configs : List DeployConfigFile) : Except String DeployConfig :=
  if configs.length = 0 then Except.error "no configs to merge"
  else mergeConfigsGo configs [] []

/-- The fully-qualified ID a source with prefix `p` gives a package. -/
def fqID (p : String) (pkg : Package) : String :=
  if p ≠ "" then p ++ pkg.ID else pkg.ID

/-- All (fully-qualified ID, source filename) pairs the merge processes, in
processing order. -/
def fqEntries (configs : List DeployConfigFile) : List (String × String) :=
  configs.flatMap fun cf =>
    cf.Config.Packages.map fun pkg =>
      (fqID cf.Config.DeploymentPrefix pkg, cf.FileName)

/-- The package the spec expects in the merged manifest for a source prefix
`p`: ID `p ++ id` with no separator, display name `p ++ " - " ++` the
original display name (or the ID when the display name is empty), artifact
IDs `p ++ "_" ++` the original, and the untouched package when `p` is empty. -/
def prefixedPackage (p : String) (pkg : Package) : Package :=
  if p ≠ "" then
    { pkg with
        ID := p ++ pkg.ID
        DisplayName :=
          if pkg.DisplayName ≠ "" then p ++ " - " ++ pkg.DisplayName
          else p ++ " - " ++ pkg.ID
        Artifacts := pkg.Artifacts.map fun a => { a with Id := p ++ "_" ++ a.Id } }
  else pkg

theorem mapLookup_some_mem {m : List (String × String)} {k v : String}
    (h : mapLookup m k = some v) : (k, v) ∈ m := by
  induction m with
  | nil => simp [mapLookup] at h
  | cons e rest ih =>
    obtain ⟨k', v'⟩ := e
    rw [mapLookup] at h
    by_cases hk : k' = k
    · simp [hk] at h
      subst hk
      subst h
      exact List.mem_cons_self _ _
    · simp [hk] at h
      exact List.mem_cons_of_mem _ (ih h)

theorem mapLookup_none_iff {m : List (String × String)} {k : String} :
    mapLookup m k = none ↔ k ∉ m.map Prod.fst := by
  induction m with
  | nil => simp [mapLookup]
  | cons e rest ih =>
    obtain ⟨k', v'⟩ := e
    rw [mapLookup]
    by_cases hk : k' = k
    · simp [hk]
    · simp [hk, ih, Ne.symm hk]

theorem mergePackages_ok_shape {configPrefix fileName : String}
    {pkgs : List Package} {pmap pmap' : List (String × String)}
    {acc acc' : List Package}
    (h : mergePackages configPrefix fileName pkgs pmap acc =
      Except.ok (pmap', acc')) :
    pmap' = (pkgs.map fun p => (fqID configPrefix p, fileName)).reverse ++ pmap ∧
      acc' = acc ++ pkgs.map (prefixedPackage configPrefix) := by
  induction pkgs generalizing pmap acc with
  | nil =>
    rw [mergePackages] at h
    injection h with h
    injection h with h1 h2
    simp [h1.symm, h2.symm]
  | cons pkg rest ih =>
    rw [mergePackages] at h
    by_cases hp : configPrefix ≠ ""
    · simp only [if_pos hp] at h
      cases hl : mapLookup pmap (configPrefix ++ pkg.ID) with
      | some v => rw [hl] at h; exact absurd h (by simp)
      | none =>
        rw [hl] at h
        obtain ⟨h1, h2⟩ := ih h
        constructor
        · rw [h1]; simp [fqID, hp]
        · rw [h2]; simp [prefixedPackage, hp]
    · simp only [if_neg hp] at h
      cases hl : mapLookup pmap pkg.ID with
      | some v => rw [hl] at h; exact absurd h (by simp)
      | none =>
        rw [hl] at h
        obtain ⟨h1, h2⟩ := ih h
        constructor
        · rw [h1]; simp [fqID, hp]
        · rw [h2]; simp [prefixedPackage, hp]

theorem mergeConfigsGo_ok_shape {configs : List DeployConfigFile}
    {pmap : List (String × String)} {acc : List Package} {m : DeployConfig}
    (h : mergeConfigsGo configs pmap acc = Except.ok m) :
    m.Packages = acc ++ configs.flatMap fun cf =>
      cf.Config.Packages.map (prefixedPackage cf.Config.DeploymentPrefix) := by
  induction configs generalizing pmap acc with
  | nil =>
    rw [mergeConfigsGo] at h
    injection h with h
    simp [h.symm]
  | cons cf rest ih =>
    rw [mergeConfigsGo] at h
    cases hm : mergePackages cf.Config.DeploymentPrefix cf.FileName
        cf.Config.Packages pmap acc with
    | error e => rw [hm] at h; exact absurd h (by simp)
    | ok pa =>
      rw [hm] at h
      obtain ⟨pmap', acc'⟩ := pa
      have hshape := mergePackages_ok_shape hm
      have := ih h
      rw [this, hshape.2]
      simp

/-- C5: whenever `MergeConfigs` succeeds, every package of a source manifest
with a non-empty prefix `P` appears in the merged manifest with ID `P ++ id`
(no separator), display name `P ++ " - " ++` the original display name (or
the ID when the display name is empty), and artifact IDs `P ++ "_" ++` the
originals; with an empty prefix the package appears unchanged. -/
theorem c5_merge_applies_source_prefixes
    (configs : List DeployConfigFile) (merged : DeployConfig)
    (hok : MergeConfigs configs = Except.ok merged)
    (cf : DeployConfigFile) (hcf : cf ∈ configs)
    (pkg : Package) (hpkg : pkg ∈ cf.Config.Packages) :
    (cf.Config.DeploymentPrefix ≠ "" →
      { pkg with
          ID := cf.Config.DeploymentPrefix ++ pkg.ID
          DisplayName :=
            if pkg.DisplayName ≠ "" then
              cf.Config.DeploymentPrefix ++ " - " ++ pkg.DisplayName
            else cf.Config.DeploymentPrefix ++ " - " ++ pkg.ID
          Artifacts := pkg.Artifacts.map fun a =>
            { a with Id := cf.Config.DeploymentPrefix ++ "_" ++ a.Id } }
        ∈ merged.Packages) ∧
    (cf.Config.DeploymentPrefix = "" → pkg ∈ merged.Packages) := by
  rw [MergeConfigs] at hok
  by_cases hc : configs.length = 0
  · rw [if_pos hc] at hok; exact absurd hok (by simp)
  · rw [if_neg hc] at hok
    have hshape := mergeConfigsGo_ok_shape hok
    have hmem : prefixedPackage cf.Config.DeploymentPrefix pkg ∈ merged.Packages := by
      rw [hshape]
      refine List.mem_append_right _ ?_
      rw [List.mem_flatMap]
      exact ⟨cf, hcf, List.mem_map_of_mem _ hpkg⟩
    constructor
    · intro hp
      have : prefixedPackage cf.Config.DeploymentPrefix pkg =
          { pkg with
              ID := cf.Config.DeploymentPrefix ++ pkg.ID
              DisplayName :=
                if pkg.DisplayName ≠ "" then
                  cf.Config.DeploymentPrefix ++ " - " ++ pkg.DisplayName
                else cf.Config.DeploymentPrefix ++ " - " ++ pkg.ID
              Artifacts := pkg.Artifacts.map fun a =>
                { a with Id := cf.Config.DeploymentPrefix ++ "_" ++ a.Id } } := by
        rw [prefixedPackage, if_pos hp]
      rw [this] at hmem
      exact hmem
    · intro hp
      have : prefixedPackage cf.Config.DeploymentPrefix pkg = pkg := by
        rw [prefixedPackage, if_neg (by simp [hp])]
      rw [this] at hmem
      exact hmem

/-- A concrete source file used by the C5 witness. -/
def c5File : DeployConfigFile :=
  { Config :=
      { DeploymentPrefix := "DEV"
        Packages := [{ ID := "P1", PackageDir := "P1", DisplayName := "",
                       Description := "", ShortText := "", Sync := true,
                       Deploy := true,
                       Artifacts := [{ Id := "A1", ArtifactDir := "A1",
                                       DisplayName := "A1",
                                       ArtifactType := "IntegrationFlow",
                                       Sync := true, Deploy := true }] }] }
    Source := "a.yml", FileName := "a.yml", Order := 0 }

/-- The merged manifest produced for `[c5File]`, used by the C5 witness. -/
def c5Merged : DeployConfig :=
  { DeploymentPrefix := ""
    Packages := [{ ID := "DEVP1", PackageDir := "P1", DisplayName := "DEV - P1",
                   Description := "", ShortText := "", Sync := true,
                   Deploy := true,
                   Artifacts := [{ Id := "DEV_A1", ArtifactDir := "A1",
                                   DisplayName := "A1",
                                   ArtifactType := "IntegrationFlow",
                                   Sync := true, Deploy := true }] }] }

theorem c5_witness :
    { ID := "DEVP1", PackageDir := "P1", DisplayName := "DEV - P1",
      Description := "", ShortText := "", Sync := true, Deploy := true,
      Artifacts := [{ Id := "DEV_A1", ArtifactDir := "A1", DisplayName := "A1",
                      ArtifactType := "IntegrationFlow", Sync := true,
                      Deploy := true }] } ∈ c5Merged.Packages := by
  have h := c5_merge_applies_source_prefixes [c5File] c5Merged (by rfl)
    c5File (by decide)
    { ID := "P1", PackageDir := "P1", DisplayName := "", Description := "",
      ShortText := "", Sync := true, Deploy := true,
      Artifacts := [{ Id := "A1", ArtifactDir := "A1", DisplayName := "A1",
                      ArtifactType := "IntegrationFlow", Sync := true,
                      Deploy := true }] } (by decide)
  simpa using h.1 (by decide)

/-- Substring containment, used to state what an error message mentions. -/
def strContains (hay needle : String) : Prop :=
  ∃ a b : String, hay = a ++ (needle ++ b)

theorem dupMsg_mentions (q f2 f1 : String) :
    strContains (dupPackageMsg q f2 f1) q ∧
      strContains (dupPackageMsg q f2 f1) f2 ∧
      strContains (dupPackageMsg q f2 f1) f1 := by
  refine ⟨⟨"duplicate package ID '",
      "' found in " ++ (f2 ++ (" (already exists from " ++ (f1 ++ ")"))), ?_⟩,
    ⟨"duplicate package ID '" ++ (q ++ "' found in "),
      " (already exists from " ++ (f1 ++ ")"), ?_⟩,
    ⟨"duplicate package ID '" ++ (q ++ ("' found in " ++ (f2 ++ " (already exists from "))),
      ")", ?_⟩⟩ <;>
    simp [dupPackageMsg, String.append_assoc]

theorem fqID_ite (p : String) (pkg : Package) :
    (if p ≠ "" then p ++ pkg.ID else pkg.ID) = fqID p pkg := rfl

theorem mergePackages_ok_of_nodup {configPrefix : String} (fileName : String)
    {pkgs : List Package} (pmap : List (String × String)) (acc : List Package)
    (hnd : (pmap.map Prod.fst ++ pkgs.map (fqID configPrefix)).Nodup) :
    ∃ pmap' acc',
      mergePackages configPrefix fileName pkgs pmap acc =
        Except.ok (pmap', acc') := by
  induction pkgs generalizing pmap acc with
  | nil => exact ⟨pmap, acc, by rw [mergePackages]⟩
  | cons pkg rest ih =>
    have hk : fqID configPrefix pkg ∉ pmap.map Prod.fst := by
      rcases List.nodup_append.mp hnd with ⟨_, _, hdisj⟩
      intro hmem
      exact hdisj hmem (by simp)
    have hl : mapLookup pmap (fqID configPrefix pkg) = none :=
      mapLookup_none_iff.mpr hk
    have hnd' : (((fqID configPrefix pkg, fileName) :: pmap).map Prod.fst ++
        rest.map (fqID configPrefix)).Nodup := by
      have hperm : List.Perm
          (pmap.map Prod.fst ++ (pkg :: rest).map (fqID configPrefix))
          (fqID configPrefix pkg :: (pmap.map Prod.fst ++ rest.map (fqID configPrefix))) := by
        simp only [List.map_cons]
        exact List.perm_middle
      have := hperm.nodup_iff.mp hnd
      simpa using this
    obtain ⟨pmap', acc', hok⟩ := ih ((fqID configPrefix pkg, fileName) :: pmap)
      (acc ++ [if configPrefix ≠ "" then
        { pkg with
            ID := fqID configPrefix pkg
            DisplayName :=
              if pkg.DisplayName ≠ "" then configPrefix ++ " - " ++ pkg.DisplayName
              else configPrefix ++ " - " ++ pkg.ID
            Artifacts := pkg.Artifacts.map fun a =>
              { a with Id := configPrefix ++ "_" ++ a.Id } }
        else pkg]) hnd'
    refine ⟨pmap', acc', ?_⟩
    rw [mergePackages]
    by_cases hp : configPrefix ≠ ""
    · simp only [if_pos hp, fqID, hp] at hl hok ⊢
      rw [hl]
      exact hok
    · simp only [if_neg hp, fqID, hp] at hl hok ⊢
      rw [hl]
      exact hok

theorem mergePackages_error_of_dup {configPrefix : String} (fileName : String)
    {pkgs : List Package} (pmap : List (String × String)) (acc : List Package)
    (hnd : (pmap.map Prod.fst).Nodup)
    (hdup : ¬ (pmap.map Prod.fst ++ pkgs.map (fqID configPrefix)).Nodup) :
    ∃ q f1 f2,
      mergePackages configPrefix fileName pkgs pmap acc =
        Except.error (dupPackageMsg q f2 f1) ∧
      ((q, f1) ∈ pmap ∨
        (q, f1) ∈ pkgs.map fun p => (fqID configPrefix p, fileName)) ∧
      (q, f2) ∈ pkgs.map fun p => (fqID configPrefix p, fileName) := by
  induction pkgs generalizing pmap acc with
  | nil => simp at hdup; exact absurd hnd hdup
  | cons pkg rest ih =>
    cases hl : mapLookup pmap (fqID configPrefix pkg) with
    | some v =>
      refine ⟨fqID configPrefix pkg, v, fileName, ?_, ?_, ?_⟩
      · rw [mergePackages]
        by_cases hp : configPrefix ≠ ""
        · simp only [if_pos hp, fqID, hp] at hl ⊢
          rw [hl]
        · simp only [if_neg hp, fqID, hp] at hl ⊢
          rw [hl]
      · exact Or.inl (mapLookup_some_mem hl)
      · simp
    | none =>
      have hk : fqID configPrefix pkg ∉ pmap.map Prod.fst :=
        mapLookup_none_iff.mp hl
      have hnd' : (((fqID configPrefix pkg, fileName) :: pmap).map Prod.fst).Nodup := by
        simp only [List.map_cons]
        exact List.nodup_cons.mpr ⟨hk, hnd⟩
      have hdup' : ¬ (((fqID configPrefix pkg, fileName) :: pmap).map Prod.fst ++
          rest.map (fqID configPrefix)).Nodup := by
        have hperm : List.Perm
            (pmap.map Prod.fst ++ (pkg :: rest).map (fqID configPrefix))
            (fqID configPrefix pkg :: (pmap.map Prod.fst ++ rest.map (fqID configPrefix))) := by
          simp only [List.map_cons]
          exact List.perm_middle
        intro hcontra
        exact hdup (hperm.nodup_iff.mpr (by simpa using hcontra))
      obtain ⟨q, f1, f2, herr, hf1, hf2⟩ :=
        ih ((fqID configPrefix pkg, fileName) :: pmap)
          (acc ++ [if configPrefix ≠ "" then
            { pkg with
                ID := fqID configPrefix pkg
                DisplayName :=
                  if pkg.DisplayName ≠ "" then configPrefix ++ " - " ++ pkg.DisplayName
                  else configPrefix ++ " - " ++ pkg.ID
                Artifacts := pkg.Artifacts.map fun a =>
                  { a with Id := configPrefix ++ "_" ++ a.Id } }
            else pkg]) hnd' hdup'
      refine ⟨q, f1, f2, ?_, ?_, ?_⟩
      · rw [mergePackages]
        by_cases hp : configPrefix ≠ ""
        · simp only [if_pos hp, fqID, hp] at hl herr ⊢
          rw [hl]
          exact herr
        · simp only [if_neg hp, fqID, hp] at hl herr ⊢
          rw [hl]
          exact herr
      · rcases hf1 with hin | hin
        · rcases List.mem_cons.mp hin with heq | hin'
          · exact Or.inr (by rw [heq]; simp)
          · exact Or.inl hin'
        · exact Or.inr (List.mem_cons_of_mem _ hin)
      · exact List.mem_cons_of_mem _ hf2

theorem fqEntries_cons (cf : DeployConfigFile) (rest : List DeployConfigFile) :
    fqEntries (cf :: rest) =
      (cf.Config.Packages.map fun p => (fqID cf.Config.DeploymentPrefix p, cf.FileName)) ++
        fqEntries rest := by
  simp [fqEntries]

theorem mergeConfigsGo_error_of_dup {configs : List DeployConfigFile}
    (pmap : List (String × String)) (acc : List Package)
    (hnd : (pmap.map Prod.fst).Nodup)
    (hdup : ¬ (pmap.map Prod.fst ++ (fqEntries configs).map Prod.fst).Nodup) :
    ∃ q f1 f2,
      mergeConfigsGo configs pmap acc = Except.error (dupPackageMsg q f2 f1) ∧
      ((q, f1) ∈ pmap ∨ (q, f1) ∈ fqEntries configs) ∧
      (q, f2) ∈ fqEntries configs := by
  induction configs generalizing pmap acc with
  | nil => simp [fqEntries] at hdup; exact absurd hnd hdup
  | cons cf rest ih =>
    have hfst : ((cf.Config.Packages.map fun p =>
        (fqID cf.Config.DeploymentPrefix p, cf.FileName)).map Prod.fst) =
        cf.Config.Packages.map (fqID cf.Config.DeploymentPrefix) := by
      simp
    by_cases hhead : (pmap.map Prod.fst ++
        cf.Config.Packages.map (fqID cf.Config.DeploymentPrefix)).Nodup
    · obtain ⟨pmap', acc', hok⟩ :=
        mergePackages_ok_of_nodup cf.FileName pmap acc hhead
      obtain ⟨hpm, _⟩ := mergePackages_ok_shape hok
      have hperm1 : List.Perm (pmap'.map Prod.fst)
          (pmap.map Prod.fst ++ cf.Config.Packages.map (fqID cf.Config.DeploymentPrefix)) := by
        rw [hpm, List.map_append, List.map_reverse, hfst]
        exact List.Perm.trans
          (List.Perm.append_right _ (List.reverse_perm _))
          List.perm_append_comm
      have hnd' : (pmap'.map Prod.fst).Nodup := hperm1.nodup_iff.mpr hhead
      have hdup' : ¬ (pmap'.map Prod.fst ++ (fqEntries rest).map Prod.fst).Nodup := by
        intro hcontra
        apply hdup
        have hperm2 : List.Perm
            (pmap.map Prod.fst ++ (fqEntries (cf :: rest)).map Prod.fst)
            (pmap'.map Prod.fst ++ (fqEntries rest).map Prod.fst) := by
          rw [fqEntries_cons, List.map_append, hfst, ← List.append_assoc]
          exact List.Perm.append_right _ hperm1.symm
        exact hperm2.nodup_iff.mpr hcontra
      obtain ⟨q, f1, f2, herr, hf1, hf2⟩ := ih pmap' acc' hnd' hdup'
      refine ⟨q, f1, f2, ?_, ?_, ?_⟩
      · rw [mergeConfigsGo, hok]
        exact herr
      · rcases hf1 with hin | hin
        · rw [hpm] at hin
          rcases List.mem_append.mp hin with hin' | hin'
          · refine Or.inr ?_
            rw [fqEntries_cons]
            exact List.mem_append_left _ (List.mem_reverse.mp hin')
          · exact Or.inl hin'
        · refine Or.inr ?_
          rw [fqEntries_cons]
          exact List.mem_append_right _ hin
      · rw [fqEntries_cons]
        exact List.mem_append_right _ hf2
    · obtain ⟨q, f1, f2, herr, hf1, hf2⟩ :=
        mergePackages_error_of_dup cf.FileName pmap acc hnd hhead
      refine ⟨q, f1, f2, ?_, ?_, ?_⟩
      · rw [mergeConfigsGo, herr]
      · rcases hf1 with hin | hin
        · exact Or.inl hin
        · refine Or.inr ?_
          rw [fqEntries_cons]
          exact List.mem_append_left _ hin
      · rw [fqEntries_cons]
        exact List.mem_append_left _ hf2

/-- C6: whenever two packages of the loaded manifests (possibly from
different sources) produce the same fully-qualified package ID,
`MergeConfigs` returns an error — no merged manifest — whose message
contains a colliding fully-qualified ID together with the source filenames
of two packages that carry it. -/
theorem c6_merge_duplicate_id_is_error
    (configs : List DeployConfigFile)
    (hdup : ¬ ((fqEntries configs).map Prod.fst).Nodup) :
    ∃ e, MergeConfigs configs = Except.error e ∧
      ∃ q f1 f2,
        (q, f1) ∈ fqEntries configs ∧ (q, f2) ∈ fqEntries configs ∧
        strContains e q ∧ strContains e f1 ∧ strContains e f2 := by
  have hne : configs.length ≠ 0 := by
    intro h
    rw [List.length_eq_zero] at h
    subst h
    simp [fqEntries] at hdup
  obtain ⟨q, f1, f2, herr, hf1, hf2⟩ :=
    mergeConfigsGo_error_of_dup [] []
      (by simp) (by simpa using hdup)
  have hf1' : (q, f1) ∈ fqEntries configs := by
    rcases hf1 with hin | hin
    · simp at hin
    · exact hin
  obtain ⟨hq, hof2, hof1⟩ := dupMsg_mentions q f2 f1
  refine ⟨dupPackageMsg q f2 f1, ?_, q, f1, f2, hf1', hf2, hq, hof1, hof2⟩
  rw [MergeConfigs, if_neg hne]
  exact herr

/-- Two sources that both contribute fully-qualified ID `DEVP1`, for the C6
witness. -/
def c6Configs : List DeployConfigFile :=
  [{ Config :=
       { DeploymentPrefix := "DEV"
         Packages := [{ ID := "P1", PackageDir := "P1", DisplayName := "",
                        Description := "", ShortText := "", Sync := true,
                        Deploy := true, Artifacts := [] }] }
     Source := "a.yml", FileName := "a.yml", Order := 0 },
   { Config :=
       { DeploymentPrefix := "DEV"
         Packages := [{ ID := "P1", PackageDir := "P1", DisplayName := "",
                        Description := "", ShortText := "", Sync := true,
                        Deploy := true, Artifacts := [] }] }
     Source := "b.yml", FileName := "b.yml", Order := 1 }]

theorem c6_witness :
    ∃ e, MergeConfigs c6Configs = Except.error e ∧
      ∃ q f1 f2,
        (q, f1) ∈ fqEntries c6Configs ∧ (q, f2) ∈ fqEntries c6Configs ∧
        strContains e q ∧ strContains e f1 ∧ strContains e f2 :=
  c6_merge_duplicate_id_is_error c6Configs (by decide)

/-- The orchestrator's operation mode (`ModeUpdateAndDeploy` etc.). -/
inductive OperationMode where
  | UpdateAndDeploy
  | UpdateOnly
  | DeployOnly
deriving DecidableEq, Repr

/-- `shouldInclude` (`internal/repo/partnerdirectory.go`): an empty filter
admits everything, otherwise the ID must occur in the filter. -/
def shouldInclude (id : String) (filter : List String) : Bool :=
  if filter.length = 0 then true else filter.contains id

/-- The package-level fields of `ProcessingStats`; the Go sets
`map[string]bool` are modelled as the lists of keys that were set (setting
a key twice is idempotent for membership). -/
structure ProcessingStats where
  PackagesUpdated : Nat
  PackagesFailed : Nat
  PackagesFiltered : Nat
  UpdateFailures : Nat
  SuccessfulPackageUpdates : List String
  FailedPackageUpdates : List String
deriving DecidableEq, Repr

/-- The effectful collaborators of the Phase-1 package loop, as per-package
oracles: presence of `serviceDetails`, existence of the package directory,
success of writing the package JSON, success of the external
package-syncer's `Exec`, and success of `updateArtifacts`. -/
structure PhaseOneEnv where
  serviceDetailsPresent : Bool
  dirExists : Package → Bool
  writeJSONOk : Package → Bool
  syncerOk : Package → Bool
  updateArtifactsOk : Package → Bool

/-- `updatePackage` (`internal/repo/partnerdirectory.go`): errors when
`serviceDetails` is nil or the package JSON cannot be written; when the
external package-syncer's `Exec` fails the code logs a warning ("package
might not exist yet"), deliberately swallows the error, and returns nil. -/
def updatePackage (env : PhaseOneEnv) (pkg : Package) : Except String Unit :=
  if ¬ env.serviceDetailsPresent then
    Except.error "serviceDetails is nil - cannot update package"
  else if ¬ env.writeJSONOk pkg then
    Except.error "failed to write package JSON"
  else if ¬ env.syncerOk pkg then
    Except.ok ()
  else
    Except.ok ()

/-- One iteration of the `processPackages` loop
(`internal/repo/partnerdirectory.go`): filter check, sync/deploy skip,
directory check, the package-metadata update with its failure bookkeeping
and `continue`, then the Phase-1 artifact update.  The second component of
the state records the IDs of packages whose `updateArtifacts` was invoked. -/
def p1Step (env : PhaseOneEnv) (mode : OperationMode)
    (packageFilter : List String) (st : ProcessingStats × List String)
    (pkg : Package) : ProcessingStats × List String :=
  let stats := st.1
  let arts := st.2
  if ¬ shouldInclude pkg.ID packageFilter then
    ({ stats with PackagesFiltered := stats.PackagesFiltered + 1 }, arts)
  else if ¬ pkg.Sync ∧ ¬ pkg.Deploy then st
  else if ¬ env.dirExists pkg then st
  else if mode ≠ OperationMode.DeployOnly then
    match updatePackage env pkg with
    | Except.error _ =>
      ({ stats with
          FailedPackageUpdates := stats.FailedPackageUpdates ++ [pkg.ID]
          PackagesFailed := stats.PackagesFailed + 1 }, arts)
    | Except.ok _ =>
      let stats := { stats with
          SuccessfulPackageUpdates := stats.SuccessfulPackageUpdates ++ [pkg.ID]
          PackagesUpdated := stats.PackagesUpdated + 1 }
      if pkg.Sync ∧ mode ≠ OperationMode.DeployOnly then
        let arts := arts ++ [pkg.ID]
        if ¬ env.updateArtifactsOk pkg then
          ({ stats with UpdateFailures := stats.UpdateFailures + 1 }, arts)
        else (stats, arts)
      else (stats, arts)
  else
    (stats, arts)

/-- The Phase-1 part of `processPackages`: fold the per-package step over
the manifest's packages in order. -/
def processPackagesP1 (env : PhaseOneEnv) (mode : OperationMode)
    (packageFilter : List String) (config : DeployConfig) :
    ProcessingStats × List String :=
  config.Packages.foldl (p1Step env mode packageFilter)
    (⟨0, 0, 0, 0, [], []⟩, [])

/-- A package survives the filter, the sync/deploy skip and the directory
check of the Phase-1 loop. -/
def p1Reached (env : PhaseOneEnv) (packageFilter : List String)
    (pkg : Package) : Bool :=
  shouldInclude pkg.ID packageFilter && (pkg.Sync || pkg.Deploy) &&
    env.dirExists pkg

/-- `updatePackage` returns an error for this package. -/
def updateErrored (env : PhaseOneEnv) (pkg : Package) : Bool :=
  match updatePackage env pkg with
  | Except.error _ => true
  | Except.ok _ => false

/-- A package is recorded in the failed-packages set by the Phase-1 loop. -/
def p1FailPred (env : PhaseOneEnv) (mode : OperationMode)
    (packageFilter : List String) (pkg : Package) : Bool :=
  p1Reached env packageFilter pkg && decide (mode ≠ OperationMode.DeployOnly) &&
    updateErrored env pkg

/-- A package has its artifacts updated by the Phase-1 loop. -/
def p1ArtsPred (env : PhaseOneEnv) (mode : OperationMode)
    (packageFilter : List String) (pkg : Package) : Bool :=
  p1Reached env packageFilter pkg && decide (mode ≠ OperationMode.DeployOnly) &&
    !updateErrored env pkg && pkg.Sync

theorem p1Step_failed (env : PhaseOneEnv) (mode : OperationMode)
    (packageFilter : List String) (st : ProcessingStats × List String)
    (pkg : Package) :
    (p1Step env mode packageFilter st pkg).1.FailedPackageUpdates =
      st.1.FailedPackageUpdates ++
        (if p1FailPred env mode packageFilter pkg then [pkg.ID] else []) := by
  by_cases h1 : shouldInclude pkg.ID packageFilter
  · by_cases h2 : ¬ pkg.Sync ∧ ¬ pkg.Deploy
    · simp [p1Step, p1FailPred, p1Reached, h1, h2, h2.1, h2.2]
    · by_cases h3 : env.dirExists pkg
      · by_cases h4 : mode = OperationMode.DeployOnly
        · subst h4
          simp [p1Step, p1FailPred, h1, h2, h3]
        · have hsd : (pkg.Sync || pkg.Deploy) = true := by
            rcases not_and_or.mp h2 with hc | hc <;> simp at hc <;> simp [hc]
          have h2' : ¬ (pkg.Sync = false ∧ pkg.Deploy = false) := by
            intro hc
            rw [hc.1, hc.2] at hsd
            simp at hsd
          cases hup : updatePackage env pkg with
          | error e =>
            simp [p1Step, p1FailPred, p1Reached, updateErrored,
              h1, h2, h2', h3, h4, hsd, hup]
          | ok u =>
            by_cases h5 : pkg.Sync ∧ mode ≠ OperationMode.DeployOnly
            · by_cases h6 : env.updateArtifactsOk pkg <;>
                simp [p1Step, p1FailPred, updateErrored, h1, h2, h2', h3, h4,
                  h5, h5.1, h6, hup]
            · have hsync : pkg.Sync = false := by
                rcases not_and_or.mp h5 with hc | hc
                · simpa using hc
                · exact absurd h4 (by simpa using hc)
              by_cases hd : pkg.Deploy = false <;>
                simp [p1Step, p1FailPred, updateErrored, h1, h2, h2', h3, h4,
                  h5, hsync, hup, hd]
      · simp [p1Step, p1FailPred, p1Reached, h1, h2, h3]
  · simp [p1Step, p1FailPred, p1Reached, h1]

theorem p1Step_arts (env : PhaseOneEnv) (mode : OperationMode)
    (packageFilter : List String) (st : ProcessingStats × List String)
    (pkg : Package) :
    (p1Step env mode packageFilter st pkg).2 =
      st.2 ++ (if p1ArtsPred env mode packageFilter pkg then [pkg.ID] else []) := by
  by_cases h1 : shouldInclude pkg.ID packageFilter
  · by_cases h2 : ¬ pkg.Sync ∧ ¬ pkg.Deploy
    · simp [p1Step, p1ArtsPred, p1Reached, h1, h2, h2.1, h2.2]
    · by_cases h3 : env.dirExists pkg
      · by_cases h4 : mode = OperationMode.DeployOnly
        · subst h4
          simp [p1Step, p1ArtsPred, h1, h2, h3]
        · have hsd : (pkg.Sync || pkg.Deploy) = true := by
            rcases not_and_or.mp h2 with hc | hc <;> simp at hc <;> simp [hc]
          have h2' : ¬ (pkg.Sync = false ∧ pkg.Deploy = false) := by
            intro hc
            rw [hc.1, hc.2] at hsd
            simp at hsd
          cases hup : updatePackage env pkg with
          | error e =>
            simp [p1Step, p1ArtsPred, updateErrored, h1, h2, h2', h3, h4, hup]
          | ok u =>
            by_cases h5 : pkg.Sync ∧ mode ≠ OperationMode.DeployOnly
            · by_cases h6 : env.updateArtifactsOk pkg <;>
                simp [p1Step, p1ArtsPred, p1Reached, updateErrored,
                  h1, h2, h2', h3, h4, h5, h5.1, h6, hsd, hup]
            · have hsync : pkg.Sync = false := by
                rcases not_and_or.mp h5 with hc | hc
                · simpa using hc
                · exact absurd h4 (by simpa using hc)
              by_cases hd : pkg.Deploy = false <;>
                simp [p1Step, p1ArtsPred, h1, h2, h2', h3, h4, h5, hsync, hup, hd]
      · simp [p1Step, p1ArtsPred, p1Reached, h1, h2, h3]
  · simp [p1Step, p1ArtsPred, p1Reached, h1]

theorem p1_fold_shape (env : PhaseOneEnv) (mode : OperationMode)
    (packageFilter : List String) (pkgs : List Package)
    (st : ProcessingStats × List String) :
    (pkgs.foldl (p1Step env mode packageFilter) st).1.FailedPackageUpdates =
      st.1.FailedPackageUpdates ++
        (pkgs.filter (p1FailPred env mode packageFilter)).map Package.ID ∧
    (pkgs.foldl (p1Step env mode packageFilter) st).2 =
      st.2 ++ (pkgs.filter (p1ArtsPred env mode packageFilter)).map Package.ID := by
  induction pkgs generalizing st with
  | nil => simp
  | cons pkg rest ih =>
    obtain ⟨ih1, ih2⟩ := ih (p1Step env mode packageFilter st pkg)
    rw [List.foldl_cons]
    constructor
    · rw [ih1, p1Step_failed, List.filter_cons]
      by_cases hp : p1FailPred env mode packageFilter pkg <;>
        simp [hp, List.append_assoc]
    · rw [ih2, p1Step_arts, List.filter_cons]
      by_cases hp : p1ArtsPred env mode packageFilter pkg <;>
        simp [hp, List.append_assoc]

/-- C2 (amended): in Phase 1 a package is recorded in the failed-packages
set, and its artifacts are skipped, exactly when `updatePackage` itself
returns an error (missing `serviceDetails` or a failed package-JSON write);
packages whose `updatePackage` reports success — which includes every
package whose external package-syncer call failed, since that failure is
swallowed — have their artifacts processed when `sync=true`; other packages
continue to be processed either way. -/
theorem c2_update_error_bookkeeping
    (env : PhaseOneEnv) (mode : OperationMode) (packageFilter : List String)
    (config : DeployConfig)
    (hnodup : (config.Packages.map Package.ID).Nodup)
    (hmode : mode ≠ OperationMode.DeployOnly)
    (pkg : Package) (hmem : pkg ∈ config.Packages)
    (hincl : shouldInclude pkg.ID packageFilter = true)
    (hsd : pkg.Sync = true ∨ pkg.Deploy = true)
    (hdir : env.dirExists pkg = true) :
    ((∃ e, updatePackage env pkg = Except.error e) →
      pkg.ID ∈ (processPackagesP1 env mode packageFilter config).1.FailedPackageUpdates ∧
        pkg.ID ∉ (processPackagesP1 env mode packageFilter config).2) ∧
    (updatePackage env pkg = Except.ok () → pkg.Sync = true →
      pkg.ID ∈ (processPackagesP1 env mode packageFilter config).2) := by
  obtain ⟨hshape1, hshape2⟩ :=
    p1_fold_shape env mode packageFilter config.Packages (⟨0, 0, 0, 0, [], []⟩, [])
  have hreach : p1Reached env packageFilter pkg = true := by
    rcases hsd with hc | hc <;> simp [p1Reached, hincl, hdir, hc]
  constructor
  · rintro ⟨e, herr⟩
    have hfail : p1FailPred env mode packageFilter pkg = true := by
      simp [p1FailPred, hreach, hmode, updateErrored, herr]
    constructor
    · rw [processPackagesP1, hshape1]
      refine List.mem_append_right _ ?_
      exact List.mem_map_of_mem _ (List.mem_filter.mpr ⟨hmem, hfail⟩)
    · rw [processPackagesP1, hshape2]
      intro hin
      rw [List.nil_append] at hin
      obtain ⟨q, hq, hid⟩ := List.mem_map.mp hin
      obtain ⟨hqmem, hqpred⟩ := List.mem_filter.mp hq
      have : q = pkg := List.inj_on_of_nodup_map hnodup hqmem hmem hid
      subst this
      simp [p1ArtsPred, updateErrored, herr] at hqpred
  · intro hok hsync
    have harts : p1ArtsPred env mode packageFilter pkg = true := by
      simp [p1ArtsPred, hreach, hmode, updateErrored, hok, hsync]
    rw [processPackagesP1, hshape2]
    refine List.mem_append_right _ ?_
    exact List.mem_map_of_mem _ (List.mem_filter.mpr ⟨hmem, harts⟩)

/-- The package used by the C2 counterexample and witness. -/
def c2Pkg : Package :=
  { ID := "P1", PackageDir := "P1", DisplayName := "P1", Description := "",
    ShortText := "", Sync := true, Deploy := false, Artifacts := [] }

/-- An environment in which the external package-syncer fails for every
package while everything else succeeds. -/
def c2SyncerFailsEnv : PhaseOneEnv :=
  { serviceDetailsPresent := true
    dirExists := fun _ => true
    writeJSONOk := fun _ => true
    syncerOk := fun _ => false
    updateArtifactsOk := fun _ => true }

/-- C2 (counterexample): with the external package-syncer failing for
package `P1`, the Phase-1 loop does not record `P1` in the failed-packages
set — it records it as successfully updated — and still processes its
artifacts, contradicting the claim that a package-syncer failure is
recorded and skips the package's artifacts. -/
theorem c2_counterexample :
    c2SyncerFailsEnv.syncerOk c2Pkg = false ∧
      "P1" ∉ (processPackagesP1 c2SyncerFailsEnv OperationMode.UpdateAndDeploy []
        ⟨"", [c2Pkg]⟩).1.FailedPackageUpdates ∧
      "P1" ∈ (processPackagesP1 c2SyncerFailsEnv OperationMode.UpdateAndDeploy []
        ⟨"", [c2Pkg]⟩).1.SuccessfulPackageUpdates ∧
      "P1" ∈ (processPackagesP1 c2SyncerFailsEnv OperationMode.UpdateAndDeploy []
        ⟨"", [c2Pkg]⟩).2 := by
  refine ⟨rfl, ?_, ?_, ?_⟩ <;> decide

/-- An environment in which `updatePackage` genuinely errors for every
package (the package JSON cannot be written). -/
def c2WriteFailsEnv : PhaseOneEnv :=
  { serviceDetailsPresent := true
    dirExists := fun _ => true
    writeJSONOk := fun _ => false
    syncerOk := fun _ => true
    updateArtifactsOk := fun _ => true }

theorem c2_witness :
    "P1" ∈ (processPackagesP1 c2WriteFailsEnv OperationMode.UpdateAndDeploy []
      ⟨"", [c2Pkg]⟩).1.FailedPackageUpdates ∧
    "P1" ∉ (processPackagesP1 c2WriteFailsEnv OperationMode.UpdateAndDeploy []
      ⟨"", [c2Pkg]⟩).2 :=
  (c2_update_error_bookkeeping c2WriteFailsEnv OperationMode.UpdateAndDeploy []
    ⟨"", [c2Pkg]⟩ (by decide) (by decide) c2Pkg (by decide) (by decide)
    (Or.inl (by decide)) (by decide)).1
    ⟨"failed to write package JSON", by rfl⟩

/-- A Partner Directory string parameter (`api.StringParameter`). -/
structure StringParameter where
  Pid : String
  ID : String
  Value : String
deriving DecidableEq, Repr

/-- A Partner Directory binary parameter (`api.BinaryParameter`). -/
structure BinaryParameter where
  Pid : String
  ID : String
  Value : String
  ContentType : String
deriving DecidableEq, Repr

/-- Results of a Partner Directory batch of operations (`api.BatchResult`). -/
structure BatchResult where
  Created : List String
  Updated : List String
  Unchanged : List String
  Deleted : List String
  Errors : List String
deriving DecidableEq, Repr

/-- The filesystem and remote-API collaborators of the Partner Directory
deploy direction, as oracles: the local PID directories, the local readers,
the remote listings, the per-item existence probe, and the outcomes of the
mutating calls. -/
structure PdEnv where
  localPIDs : List String
  readStringParams : String → Except String (List StringParameter)
  readBinaryParams : String → Except String (List BinaryParameter)
  remoteStringParams : List StringParameter
  remoteBinaryParams : List BinaryParameter
  getBinaryParameter : String → String → Except String (Option BinaryParameter)
  deleteStringOk : String → String → Bool
  deleteBinaryOk : String → String → Bool
  createBinaryOk : BinaryParameter → Bool
  updateBinaryOk : BinaryParameter → Bool

/-- `filterPIDs` (`internal/repo/partnerdirectory.go`): an empty filter
keeps everything, otherwise keep the PIDs the filter contains. -/
def filterPIDs (pids filter : List String) : List String :=
  if filter.length = 0 then pids
  else pids.filter fun pid => filter.contains pid

/-- The managed-PID computation of `deployPartnerDirectory`: the local PID
directories, narrowed by the filter when one is given. -/
def managedPIDsOf (env : PdEnv) (pidsFilter : List String) : List String :=
  if pidsFilter.length > 0 then filterPIDs env.localPIDs pidsFilter
  else env.localPIDs

/-- The `PID → set of local parameter IDs` maps `deleteRemoteEntriesNotInLocal`
builds (`localStringParams` / `localBinaryParams`); a PID whose read fails is
only logged and gets no entry. -/
def localSets {α : Type} (read : String → Except String (List α))
    (getID : α → String) : List String → List (String × List String)
  | [] => []
  | pid :: rest =>
    match read pid with
    | Except.error _ => localSets read getID rest
    | Except.ok ps => (pid, ps.map getID) :: localSets read getID rest

/-- Lookup of a PID's local ID set; `none` models the Go map holding `nil`. -/
def setLookup (m : List (String × List String)) (pid : String) :
    Option (List String) :=
  match m with
  | [] => none
  | (pid', ids) :: rest => if pid' = pid then some ids else setLookup rest pid

/-- The deletion condition of `deleteRemoteEntriesNotInLocal`:
`localParams[pid] == nil || !localParams[pid][id]`. -/
def missingLocally (sets : List (String × List String)) (pid id : String) : Bool :=
  match setLookup sets pid with
  | none => true
  | some ids => ¬ ids.contains id

/-- One iteration of a deletion loop of `deleteRemoteEntriesNotInLocal` over
a remote `(pid, id)` record: skip unmanaged PIDs, delete records missing
locally, record the key or the error.  The accumulator is
`(Deleted keys, Errors, issued delete calls)`. -/
def deleteStep (label : String) (managed : List String)
    (sets : List (String × List String)) (deleteOk : String → String → Bool)
    (acc : List String × List String × List (String × String))
    (p : String × String) :
    List String × List String × List (String × String) :=
  if ¬ managed.contains p.1 then acc
  else if missingLocally sets p.1 p.2 then
    let issued := acc.2.2 ++ [(p.1, p.2)]
    if deleteOk p.1 p.2 then
      (acc.1 ++ [p.1 ++ "/" ++ p.2], acc.2.1, issued)
    else
      (acc.1, acc.2.1 ++ ["Failed to delete " ++ label ++ " " ++ p.1 ++ "/" ++ p.2],
        issued)
  else acc

/-- `deleteRemoteEntriesNotInLocal` (`internal/repo/partnerdirectory.go`):
build the local ID sets for the managed PIDs, then sweep all remote string
and binary records, deleting the ones whose PID is managed and whose ID is
not present locally.  Alongside the `BatchResult`, the issued string and
binary delete calls are returned. -/
def deleteRemoteEntriesNotInLocal (env : PdEnv) (managedPIDs : List String) :
    BatchResult × List (String × String) × List (String × String) :=
  let sSets := localSets env.readStringParams StringParameter.ID managedPIDs
  let bSets := localSets env.readBinaryParams BinaryParameter.ID managedPIDs
  let s := (env.remoteStringParams.map fun p => (p.Pid, p.ID)).foldl
    (deleteStep "string" managedPIDs sSets env.deleteStringOk) ([], [], [])
  let b := (env.remoteBinaryParams.map fun p => (p.Pid, p.ID)).foldl
    (deleteStep "binary" managedPIDs bSets env.deleteBinaryOk) ([], [], [])
  (⟨[], [], [], s.1 ++ b.1, s.2.1 ++ b.2.1⟩, s.2.2, b.2.2)

/-- The deletion gate of `deployPartnerDirectory`: the sweep runs only when
`fullSync` is set and `dryRun` is not; the result is the pair of issued
string and binary delete calls. -/
def fullSyncDeletion (env : PdEnv) (fullSync dryRun : Bool)
    (pidsFilter : List String) :
    List (String × String) × List (String × String) :=
  if fullSync ∧ ¬ dryRun then
    ((deleteRemoteEntriesNotInLocal env (managedPIDsOf env pidsFilter)).2.1,
      (deleteRemoteEntriesNotInLocal env (managedPIDsOf env pidsFilter)).2.2)
  else ([], [])

theorem deleteStep_fold_issued (label : String) (managed : List String)
    (sets : List (String × List String)) (deleteOk : String → String → Bool)
    (remote : List (String × String))
    (acc : List String × List String × List (String × String)) :
    (remote.foldl (deleteStep label managed sets deleteOk) acc).2.2 =
      acc.2.2 ++ (remote.filter fun p =>
        managed.contains p.1 && missingLocally sets p.1 p.2) := by
  induction remote generalizing acc with
  | nil => simp
  | cons p rest ih =>
    rw [List.foldl_cons, ih, List.filter_cons]
    by_cases h1 : managed.contains p.1
    · have h1' : p.1 ∈ managed := by simpa using h1
      by_cases h2 : missingLocally sets p.1 p.2
      · by_cases h3 : deleteOk p.1 p.2 <;>
          simp [deleteStep, h1, h1', h2, h3, List.append_assoc]
      · simp [deleteStep, h1, h1', h2]
    · have h1' : p.1 ∉ managed := by simpa using h1
      simp [deleteStep, h1, h1']

theorem localSets_lookup {α : Type} (read : String → Except String (List α))
    (getID : α → String) (pids : List String) (pid : String) (ps : List α)
    (hmem : pid ∈ pids) (hread : read pid = Except.ok ps) :
    setLookup (localSets read getID pids) pid = some (ps.map getID) := by
  induction pids with
  | nil => simp at hmem
  | cons q rest ih =>
    rcases List.mem_cons.mp hmem with heq | hmem'
    · subst heq
      rw [localSets, hread]
      simp [setLookup]
    · by_cases hq : q = pid
      · subst hq
        rw [localSets, hread]
        simp [setLookup]
      · rw [localSets]
        cases hr : read q with
        | error e => exact ih hmem'
        | ok qs =>
          rw [setLookup, if_neg hq]
          exact ih hmem'

theorem managedPIDsOf_subset_local (env : PdEnv) (pidsFilter : List String)
    {pid : String} (h : pid ∈ managedPIDsOf env pidsFilter) :
    pid ∈ env.localPIDs := by
  rw [managedPIDsOf] at h
  by_cases hf : pidsFilter.length > 0
  · rw [if_pos hf, filterPIDs] at h
    by_cases hz : pidsFilter.length = 0
    · rw [if_pos hz] at h; exact h
    · rw [if_neg hz] at h
      exact (List.mem_filter.mp h).1
  · rw [if_neg hf] at h; exact h

/-- C3: a delete issued during full-sync deletion — which runs only when
`fullSync=true` and `dryRun=false` — always targets a remote record whose
partner ID is in the managed set (hence has a local directory) and whose
parameter ID is absent from that partner's local files (stated against
whatever the local read returns; a PID whose read fails has no local set
and its absence condition is vacuous); remote records whose partner ID has
no local directory are never deleted. -/
theorem c3_full_sync_deletes_only_unmanaged_free
    (env : PdEnv) (fullSync dryRun : Bool) (pidsFilter : List String) :
    (∀ pid id, (pid, id) ∈ (fullSyncDeletion env fullSync dryRun pidsFilter).1 →
      fullSync = true ∧ dryRun = false ∧
      pid ∈ managedPIDsOf env pidsFilter ∧ pid ∈ env.localPIDs ∧
      ∀ ps, env.readStringParams pid = Except.ok ps →
        id ∉ ps.map StringParameter.ID) ∧
    (∀ pid id, (pid, id) ∈ (fullSyncDeletion env fullSync dryRun pidsFilter).2 →
      fullSync = true ∧ dryRun = false ∧
      pid ∈ managedPIDsOf env pidsFilter ∧ pid ∈ env.localPIDs ∧
      ∀ ps, env.readBinaryParams pid = Except.ok ps →
        id ∉ ps.map BinaryParameter.ID) := by
  by_cases hgate : fullSync = true ∧ dryRun = false
  · constructor
    · intro pid id hmem
      rw [fullSyncDeletion, if_pos (by simp [hgate.1, hgate.2])] at hmem
      simp only [deleteRemoteEntriesNotInLocal] at hmem
      rw [deleteStep_fold_issued, List.nil_append] at hmem
      rw [List.mem_filter] at hmem
      obtain ⟨hmem', hcond⟩ := hmem
      have hman : pid ∈ managedPIDsOf env pidsFilter := by
        have := (Bool.and_eq_true _ _).mp hcond |>.1
        simpa using this
      have hmiss : missingLocally
          (localSets env.readStringParams StringParameter.ID
            (managedPIDsOf env pidsFilter)) pid id = true :=
        (Bool.and_eq_true _ _).mp hcond |>.2
      refine ⟨hgate.1, hgate.2, hman, managedPIDsOf_subset_local env pidsFilter hman, ?_⟩
      intro ps hps
      have hlook := localSets_lookup env.readStringParams StringParameter.ID
        (managedPIDsOf env pidsFilter) pid ps hman hps
      rw [missingLocally, hlook] at hmiss
      simpa using hmiss
    · intro pid id hmem
      rw [fullSyncDeletion, if_pos (by simp [hgate.1, hgate.2])] at hmem
      simp only [deleteRemoteEntriesNotInLocal] at hmem
      rw [deleteStep_fold_issued, List.nil_append] at hmem
      rw [List.mem_filter] at hmem
      obtain ⟨hmem', hcond⟩ := hmem
      have hman : pid ∈ managedPIDsOf env pidsFilter := by
        have := (Bool.and_eq_true _ _).mp hcond |>.1
        simpa using this
      have hmiss : missingLocally
          (localSets env.readBinaryParams BinaryParameter.ID
            (managedPIDsOf env pidsFilter)) pid id = true :=
        (Bool.and_eq_true _ _).mp hcond |>.2
      refine ⟨hgate.1, hgate.2, hman, managedPIDsOf_subset_local env pidsFilter hman, ?_⟩
      intro ps hps
      have hlook := localSets_lookup env.readBinaryParams BinaryParameter.ID
        (managedPIDsOf env pidsFilter) pid ps hman hps
      rw [missingLocally, hlook] at hmiss
      simpa using hmiss
  · have hempty : fullSyncDeletion env fullSync dryRun pidsFilter = ([], []) := by
      rw [fullSyncDeletion, if_neg]
      intro hc
      exact hgate ⟨hc.1, by simpa using hc.2⟩
    rw [hempty]
    exact ⟨fun pid id h => absurd h (by simp), fun pid id h => absurd h (by simp)⟩

/-- The scenario of the C3 witness: local partner `P1` holds only string
parameter `s1`; the remote side has `P1/s1`, `P1/s2` and `P2/x1`. -/
def c3Env : PdEnv :=
  { localPIDs := ["P1"]
    readStringParams := fun _ =>
      Except.ok [{ Pid := "P1", ID := "s1", Value := "v1" }]
    readBinaryParams := fun _ => Except.ok []
    remoteStringParams :=
      [{ Pid := "P1", ID := "s1", Value := "v1" },
       { Pid := "P1", ID := "s2", Value := "v2" },
       { Pid := "P2", ID := "x1", Value := "x" }]
    remoteBinaryParams := []
    getBinaryParameter := fun _ _ => Except.ok none
    deleteStringOk := fun _ _ => true
    deleteBinaryOk := fun _ _ => true
    createBinaryOk := fun _ => true
    updateBinaryOk := fun _ => true }

theorem c3_witness :
    ("P1", "s2") ∈ (fullSyncDeletion c3Env true false []).1 ∧
      ("P1" ∈ managedPIDsOf c3Env [] ∧ "P1" ∈ c3Env.localPIDs ∧
        ∀ ps, c3Env.readStringParams "P1" = Except.ok ps →
          "s2" ∉ ps.map StringParameter.ID) := by
  have happ := (c3_full_sync_deletes_only_unmanaged_free c3Env true false []).1
    "P1" "s2" (by decide)
  exact ⟨by decide, happ.2.2.1, happ.2.2.2.1, happ.2.2.2.2⟩

/-- The `pid/id` key under which deploy results are recorded. -/
def binKey (param : BinaryParameter) : String :=
  param.Pid ++ "/" ++ param.ID

/-- The per-parameter body of the `deployBinaryParameters` loop
(`internal/repo/partnerdirectory.go`): probe the remote record; classify as
Created (absent), Updated (present and `replace` with a differing *value*),
or Unchanged; in dry-run mode the same classification happens without
mutating calls. -/
def deployBinStep (env : PdEnv) (replace dryRun : Bool) (acc : BatchResult)
    (param : BinaryParameter) : BatchResult :=
  let key := binKey param
  if dryRun then
    match env.getBinaryParameter param.Pid param.ID with
    | Except.error e => { acc with Errors := acc.Errors ++ [key ++ ": " ++ e] }
    | Except.ok none => { acc with Created := acc.Created ++ [key] }
    | Except.ok (some existing) =>
      if replace = true ∧ existing.Value ≠ param.Value then
        { acc with Updated := acc.Updated ++ [key] }
      else { acc with Unchanged := acc.Unchanged ++ [key] }
  else
    match env.getBinaryParameter param.Pid param.ID with
    | Except.error e => { acc with Errors := acc.Errors ++ [key ++ ": " ++ e] }
    | Except.ok none =>
      if env.createBinaryOk param then { acc with Created := acc.Created ++ [key] }
      else { acc with Errors := acc.Errors ++ [key ++ ": create failed"] }
    | Except.ok (some existing) =>
      if replace = true ∧ existing.Value ≠ param.Value then
        if env.updateBinaryOk param then { acc with Updated := acc.Updated ++ [key] }
        else { acc with Errors := acc.Errors ++ [key ++ ": update failed"] }
      else { acc with Unchanged := acc.Unchanged ++ [key] }

/-- The per-PID body of `deployBinaryParameters`: read the PID's local
binary parameters (a failed read is recorded and the PID skipped) and fold
the per-parameter step over them. -/
def deployBinPidStep (env : PdEnv) (replace dryRun : Bool) (acc : BatchResult)
    (pid : String) : BatchResult :=
  match env.readBinaryParams pid with
  | Except.error _ => { acc with Errors := acc.Errors ++ ["Failed to read " ++ pid] }
  | Except.ok params => params.foldl (deployBinStep env replace dryRun) acc

/-- `deployBinaryParameters` (`internal/repo/partnerdirectory.go`): walk the
(optionally filtered) local PIDs and classify every local binary parameter. -/
def deployBinaryParameters (env : PdEnv) (replace dryRun : Bool)
    (pidsFilter : List String) : BatchResult :=
  let localPIDs := if pidsFilter.length > 0 then filterPIDs env.localPIDs pidsFilter
    else env.localPIDs
  localPIDs.foldl (deployBinPidStep env replace dryRun) ⟨[], [], [], [], []⟩

/-- A local binary parameter is classified Unchanged: the probe succeeded,
the remote record exists, and not (`replace` with a differing value). -/
def binUnchangedPred (env : PdEnv) (replace : Bool)
    (param : BinaryParameter) : Bool :=
  match env.getBinaryParameter param.Pid param.ID with
  | Except.error _ => false
  | Except.ok none => false
  | Except.ok (some existing) =>
    if replace = true ∧ existing.Value ≠ param.Value then false else true

/-- All local binary parameters the deploy direction processes, in order. -/
def localBinParams (env : PdEnv) (pidsFilter : List String) :
    List BinaryParameter :=
  (if pidsFilter.length > 0 then filterPIDs env.localPIDs pidsFilter
    else env.localPIDs).flatMap fun pid =>
    match env.readBinaryParams pid with
    | Except.error _ => []
    | Except.ok params => params

theorem deployBinStep_unchanged (env : PdEnv) (replace dryRun : Bool)
    (acc : BatchResult) (param : BinaryParameter) :
    (deployBinStep env replace dryRun acc param).Unchanged =
      acc.Unchanged ++
        (if binUnchangedPred env replace param then [binKey param] else []) := by
  cases hg : env.getBinaryParameter param.Pid param.ID with
  | error e =>
    by_cases hd : dryRun <;> simp [deployBinStep, binUnchangedPred, hd, hg]
  | ok existing =>
    cases existing with
    | none =>
      by_cases hd : dryRun
      · simp [deployBinStep, binUnchangedPred, hd, hg]
      · by_cases hc : env.createBinaryOk param <;>
          simp [deployBinStep, binUnchangedPred, hd, hg, hc]
    | some ex =>
      by_cases hr : replace = true ∧ ex.Value ≠ param.Value
      · by_cases hd : dryRun
        · simp [deployBinStep, binUnchangedPred, hd, hg, hr]
        · by_cases hu : env.updateBinaryOk param <;>
            simp [deployBinStep, binUnchangedPred, hd, hg, hr, hu]
      · by_cases hd : dryRun <;>
          simp [deployBinStep, binUnchangedPred, hd, hg, hr]

theorem deployBinFold_unchanged (env : PdEnv) (replace dryRun : Bool)
    (params : List BinaryParameter) (acc : BatchResult) :
    (params.foldl (deployBinStep env replace dryRun) acc).Unchanged =
      acc.Unchanged ++
        (params.filter (binUnchangedPred env replace)).map binKey := by
  induction params generalizing acc with
  | nil => simp
  | cons param rest ih =>
    rw [List.foldl_cons, ih, deployBinStep_unchanged, List.filter_cons]
    by_cases hp : binUnchangedPred env replace param <;>
      simp [hp, List.append_assoc]

theorem deployBinPidFold_unchanged (env : PdEnv) (replace dryRun : Bool)
    (pids : List String) (acc : BatchResult) :
    (pids.foldl (deployBinPidStep env replace dryRun) acc).Unchanged =
      acc.Unchanged ++
        ((pids.flatMap fun pid =>
          match env.readBinaryParams pid with
          | Except.error _ => []
          | Except.ok params => params).filter
            (binUnchangedPred env replace)).map binKey := by
  induction pids generalizing acc with
  | nil => simp
  | cons pid rest ih =>
    rw [List.foldl_cons, ih]
    cases hr : env.readBinaryParams pid with
    | error e =>
      simp [deployBinPidStep, hr]
    | ok params =>
      rw [List.flatMap_cons]
      simp only [deployBinPidStep, hr, deployBinFold_unchanged]
      rw [List.filter_append, List.map_append, List.append_assoc]

theorem deployBin_unchanged_shape (env : PdEnv) (replace dryRun : Bool)
    (pidsFilter : List String) :
    (deployBinaryParameters env replace dryRun pidsFilter).Unchanged =
      ((localBinParams env pidsFilter).filter
        (binUnchangedPred env replace)).map binKey := by
  rw [deployBinaryParameters, localBinParams]
  rw [deployBinPidFold_unchanged]
  simp

/-- C4 (amended): in the Partner Directory deploy direction, a local binary
parameter whose remote counterpart exists is classified Unchanged exactly
when it is not the case that `replace=true` and the *values* differ — the
content-type plays no role in the comparison (only the batch-sync entry
point compares the `(value, contentType)` pair). -/
theorem c4_deploy_binary_unchanged_iff
    (env : PdEnv) (replace dryRun : Bool) (pidsFilter : List String)
    (hnodup : ((localBinParams env pidsFilter).map binKey).Nodup)
    (param : BinaryParameter) (hmem : param ∈ localBinParams env pidsFilter)
    (existing : BinaryParameter)
    (hex : env.getBinaryParameter param.Pid param.ID =
      Except.ok (some existing)) :
    binKey param ∈ (deployBinaryParameters env replace dryRun pidsFilter).Unchanged ↔
      ¬ (replace = true ∧ existing.Value ≠ param.Value) := by
  rw [deployBin_unchanged_shape]
  constructor
  · intro hin
    obtain ⟨q, hq, hkey⟩ := List.mem_map.mp hin
    obtain ⟨hqmem, hqpred⟩ := List.mem_filter.mp hq
    have hqp : q = param := List.inj_on_of_nodup_map hnodup hqmem hmem hkey
    subst hqp
    simp only [binUnchangedPred, hex] at hqpred
    intro hc
    rw [if_pos hc] at hqpred
    exact absurd hqpred (by simp)
  · intro hc
    have hpred : binUnchangedPred env replace param = true := by
      simp only [binUnchangedPred, hex]
      rw [if_neg hc]
    exact List.mem_map_of_mem _ (List.mem_filter.mpr ⟨hmem, hpred⟩)

/-- The local parameter of the C4 scenario: value `v`, content type `xml`. -/
def c4Param : BinaryParameter :=
  { Pid := "P1", ID := "b1", Value := "v", ContentType := "xml" }

/-- The remote counterpart: same value, different content type `json`. -/
def c4Existing : BinaryParameter :=
  { Pid := "P1", ID := "b1", Value := "v", ContentType := "json" }

/-- The environment of the C4 scenario. -/
def c4Env : PdEnv :=
  { localPIDs := ["P1"]
    readStringParams := fun _ => Except.ok []
    readBinaryParams := fun _ => Except.ok [c4Param]
    remoteStringParams := []
    remoteBinaryParams := []
    getBinaryParameter := fun _ _ => Except.ok (some c4Existing)
    deleteStringOk := fun _ _ => true
    deleteBinaryOk := fun _ _ => true
    createBinaryOk := fun _ => true
    updateBinaryOk := fun _ => true }

/-- C4 (counterexample): with `replace=true`, a local binary parameter whose
remote counterpart has the same value but a different content type is
classified Unchanged — not Updated — so difference is not decided by the
`(value, contentType)` pair in the deploy direction. -/
theorem c4_counterexample :
    c4Param.Value = c4Existing.Value ∧
      c4Param.ContentType ≠ c4Existing.ContentType ∧
      binKey c4Param ∈ (deployBinaryParameters c4Env true false []).Unchanged := by
  refine ⟨rfl, by decide, by decide⟩

theorem c4_witness :
    binKey c4Param ∈ (deployBinaryParameters c4Env true false []).Unchanged :=
  (c4_deploy_binary_unchanged_iff c4Env true false [] (by decide) c4Param
    (by decide) c4Existing rfl).mpr (by decide)

/-- First index of a character, modelling `strings.Index` for a one-character
pattern (Go returns a byte index; for the ASCII `;` probed here a positive
byte index is exactly a positive rune index, and slicing at it keeps the
runes before the character). -/
def goIndexOfChar (c : Char) : GoStr → Option Nat
  | [] => none
  | x :: xs => if x = c then some 0 else (goIndexOfChar c xs).map (· + 1)

/-- Whitespace as trimmed by `strings.TrimSpace`, restricted to ASCII. -/
def goIsSpace (c : Char) : Bool :=
  c = ' ' ∨ c = '\t' ∨ c = '\n' ∨ c = '\x0B' ∨ c = '\x0C' ∨ c = '\r'

/-- `strings.TrimSpace` (ASCII behaviour): drop whitespace on both ends. -/
def goTrimSpace (s : GoStr) : GoStr :=
  ((s.dropWhile goIsSpace).reverse.dropWhile goIsSpace).reverse

/-- Character membership, modelling `strings.Contains` with a one-character
pattern. -/
def goHasChar (c : Char) : GoStr → Bool
  | [] => false
  | x :: xs => if x = c then true else goHasChar c xs

/-- `strings.Split` with a one-character separator. -/
def goSplitChar (c : Char) : GoStr → List GoStr
  | [] => [[]]
  | x :: xs =>
    if x = c then [] :: goSplitChar c xs
    else
      match goSplitChar c xs with
      | [] => [[x]]
      | h :: t => (x :: h) :: t

/-- Everything after the first occurrence of a character (empty when the
character is absent); the spec's "the part after the `/`". -/
def goAfterChar (c : Char) : GoStr → GoStr
  | [] => []
  | x :: xs => if x = c then xs else goAfterChar c xs

/-- ASCII lower-casing of one character (the behaviour of
`strings.ToLower` / `unicode.ToLower` on the ASCII range). -/
def goToLowerChar (c : Char) : Char :=
  if 'A' ≤ c ∧ c ≤ 'Z' then Char.ofNat (c.toNat + 32) else c

/-- ASCII `strings.ToLower` over a whole string. -/
def goLowerStr (s : GoStr) : GoStr :=
  s.map goToLowerChar

/-- Suffix test, modelling `strings.HasSuffix`. -/
def goEndsWith (s suffix : GoStr) : Bool :=
  List.isPrefixOf suffix.reverse s.reverse

/-- The `supportedContentTypes` set of `internal/repo/partnerdirectory.go`. -/
def supportedContentTypes : List GoStr :=
  ["xml".data, "xsl".data, "xsd".data, "json".data, "txt".data,
   "zip".data, "gz".data, "zlib".data, "crt".data]

/-- `isValidContentType`: membership in the supported set. -/
def isValidContentType (ext : GoStr) : Bool :=
  supportedContentTypes.contains ext

/-- `isAlphanumeric` over one character, exactly the Go range checks. -/
def isAlphanumericChar (c : Char) : Bool :=
  ('a' ≤ c ∧ c ≤ 'z') ∨ ('A' ≤ c ∧ c ≤ 'Z') ∨ ('0' ≤ c ∧ c ≤ '9')

/-- `isAlphanumeric` (`internal/repo/partnerdirectory.go`). -/
def isAlphanumeric (s : GoStr) : Bool :=
  s.all isAlphanumericChar

/-- The `baseType` computation of `parseContentType`
(`internal/repo/partnerdirectory.go`): when `strings.Index(ct, ";") > 0`,
the trimmed prefix before the `;`; otherwise the whole string. -/
def ctBaseType (contentType : GoStr) : GoStr :=
  match goIndexOfChar ';' contentType with
  | some idx => if idx > 0 then goTrimSpace (contentType.take idx) else contentType
  | none => contentType

/-- The subtype-extraction step of `parseContentType`: when the base type
contains `/` and splits into exactly two parts (`len(parts) == 2`), the
second part is the extension candidate with `octet-stream ↦ bin`; otherwise
the base type itself. -/
def ctExtCandidate (baseType : GoStr) : GoStr :=
  if goHasChar '/' baseType then
    if (goSplitChar '/' baseType).length = 2 then
      if (goSplitChar '/' baseType).getD 1 [] = "octet-stream".data then "bin".data
      else (goSplitChar '/' baseType).getD 1 []
    else baseType
  else baseType

/-- `parseContentType` (`internal/repo/partnerdirectory.go`): the extension
candidate paired with the untouched full content type. -/
def parseContentType (contentType : GoStr) : GoStr × GoStr :=
  (ctExtCandidate (ctBaseType contentType), contentType)

/-- The acceptance step of `getFileExtension`: keep a supported extension,
or a nonempty alphanumeric one of 2–5 characters; otherwise `bin`. -/
def validateExt (ext : GoStr) : GoStr :=
  if isValidContentType ext then ext
  else if ext ≠ [] ∧ 2 ≤ ext.length ∧ ext.length ≤ 5 ∧ isAlphanumeric ext then ext
  else "bin".data

/-- `getFileExtension` (`internal/repo/partnerdirectory.go`). -/
def getFileExtension (contentType : GoStr) : GoStr :=
  validateExt (parseContentType contentType).1

/-- The claim's algorithm, written from the spec's words: the text before
the first `;` is the base type; a base type containing `/` contributes the
part after the `/` (with `octet-stream ↦ bin`); the candidate is accepted
when it is in the recognized set, else when alphanumeric and 2–5 characters
long, else the result is `bin`. -/
def specResolveExt (ct : GoStr) : GoStr :=
  let base := ct.takeWhile (· ≠ ';')
  let cand :=
    if goHasChar '/' base then
      if goAfterChar '/' base = "octet-stream".data then "bin".data
      else goAfterChar '/' base
    else base
  if supportedContentTypes.contains cand then cand
  else if isAlphanumeric cand ∧ 2 ≤ cand.length ∧ cand.length ≤ 5 then cand
  else "bin".data

/-- The candidate of the spec's algorithm, over an already-computed base
type: the part after the first `/` when one is present, `octet-stream`
mapped to `bin`. -/
def specCandidate (base : GoStr) : GoStr :=
  if goHasChar '/' base then
    if goAfterChar '/' base = "octet-stream".data then "bin".data
    else goAfterChar '/' base
  else base

/-- The acceptance step of the spec's algorithm. -/
def specValidate (cand : GoStr) : GoStr :=
  if supportedContentTypes.contains cand then cand
  else if isAlphanumeric cand ∧ 2 ≤ cand.length ∧ cand.length ≤ 5 then cand
  else "bin".data

/-- The spec algorithm amended on the two points the counterexample forces:
the `;` truncation applies only when the first `;` is at a positive index,
and the kept prefix is whitespace-trimmed — i.e. the base type is computed
as the code computes it, the rest follows the spec's words. -/
def specResolveExtAmended (ct : GoStr) : GoStr :=
  specValidate (specCandidate (ctBaseType ct))

theorem goHasChar_iff_mem {c : Char} {s : GoStr} :
    goHasChar c s = true ↔ c ∈ s := by
  induction s with
  | nil => simp [goHasChar]
  | cons x xs ih =>
    rw [goHasChar]
    by_cases hx : x = c
    · subst hx; simp
    · simp [hx, ih, Ne.symm hx]

theorem goSplitChar_ne_nil (c : Char) (s : GoStr) : goSplitChar c s ≠ [] := by
  cases s with
  | nil => simp [goSplitChar]
  | cons x xs =>
    rw [goSplitChar]
    by_cases hx : x = c
    · simp [hx]
    · simp only [hx, if_false]
      cases goSplitChar c xs <;> simp

theorem goSplitChar_singleton {c : Char} {s t : GoStr}
    (h : goSplitChar c s = [t]) : s = t ∧ goHasChar c s = false := by
  induction s generalizing t with
  | nil =>
    rw [goSplitChar] at h
    injection h with h1 _
    exact ⟨h1.symm ▸ rfl, rfl⟩
  | cons x xs ih =>
    rw [goSplitChar] at h
    by_cases hx : x = c
    · rw [if_pos hx] at h
      injection h with h1 h2
      exact absurd h2 (goSplitChar_ne_nil c xs)
    · rw [if_neg hx] at h
      cases hs : goSplitChar c xs with
      | nil => exact absurd hs (goSplitChar_ne_nil c xs)
      | cons hh tt =>
        rw [hs] at h
        injection h with h1 h2
        subst h2
        obtain ⟨hxs, hhas⟩ := ih hs
        subst h1
        constructor
        · rw [hxs]
        · rw [goHasChar, if_neg hx]
          exact hhas

theorem goSplitChar_pair {c : Char} {s a b : GoStr}
    (h : goSplitChar c s = [a, b]) : goAfterChar c s = b := by
  induction s generalizing a with
  | nil =>
    rw [goSplitChar] at h
    exact absurd h (by simp)
  | cons x xs ih =>
    rw [goSplitChar] at h
    by_cases hx : x = c
    · rw [if_pos hx] at h
      injection h with h1 h2
      have := goSplitChar_singleton h2
      rw [goAfterChar, if_pos hx]
      exact this.1
    · rw [if_neg hx] at h
      cases hs : goSplitChar c xs with
      | nil => exact absurd hs (goSplitChar_ne_nil c xs)
      | cons hh tt =>
        rw [hs] at h
        injection h with h1 h2
        subst h2
        rw [goAfterChar, if_neg hx]
        exact ih hs

/-- Occurrence count of a character, plain recursion. -/
def goCountChar (c : Char) : GoStr → Nat
  | [] => 0
  | x :: xs => (if x = c then 1 else 0) + goCountChar c xs

theorem goSplitChar_length (c : Char) (s : GoStr) :
    (goSplitChar c s).length = goCountChar c s + 1 := by
  induction s with
  | nil => simp [goSplitChar, goCountChar]
  | cons x xs ih =>
    rw [goSplitChar, goCountChar]
    by_cases hx : x = c
    · subst hx
      rw [if_pos rfl, if_pos rfl]
      simp only [List.length_cons, ih]
      omega
    · rw [if_neg hx, if_neg hx]
      cases hs : goSplitChar c xs with
      | nil => exact absurd hs (goSplitChar_ne_nil c xs)
      | cons hh tt =>
        rw [hs] at ih
        simp only [List.length_cons] at ih ⊢
        omega

theorem countChar_pos_hasChar {c : Char} {s : GoStr}
    (h : 0 < goCountChar c s) : goHasChar c s = true := by
  induction s with
  | nil => simp [goCountChar] at h
  | cons x xs ih =>
    rw [goCountChar] at h
    rw [goHasChar]
    by_cases hx : x = c
    · simp [hx]
    · rw [if_neg hx]
      rw [if_neg hx] at h
      exact ih (by omega)

theorem afterChar_hasChar_of_two {c : Char} {s : GoStr}
    (h : 2 ≤ goCountChar c s) : goHasChar c (goAfterChar c s) = true := by
  induction s with
  | nil => simp [goCountChar] at h
  | cons x xs ih =>
    rw [goCountChar] at h
    rw [goAfterChar]
    by_cases hx : x = c
    · rw [if_pos hx]
      rw [if_pos hx] at h
      exact countChar_pos_hasChar (by omega)
    · rw [if_neg hx]
      rw [if_neg hx] at h
      exact ih (by omega)

theorem notSupported_of_hasSlash {s : GoStr}
    (h : goHasChar '/' s = true) : supportedContentTypes.contains s = false := by
  by_contra hc
  have hmem : s ∈ supportedContentTypes := by
    have := Bool.not_eq_false _ |>.mp hc
    simpa using this
  have hno : goHasChar '/' s = false := by
    rw [supportedContentTypes] at hmem
    simp only [List.mem_cons, List.not_mem_nil, or_false] at hmem
    rcases hmem with h' | h' | h' | h' | h' | h' | h' | h' | h' <;>
      (subst h'; decide)
  rw [hno] at h
  exact absurd h (by simp)

theorem notAlnum_of_hasSlash {s : GoStr}
    (h : goHasChar '/' s = true) : isAlphanumeric s = false := by
  have hmem : '/' ∈ s := goHasChar_iff_mem.mp h
  by_contra hc
  have hall : isAlphanumeric s = true := Bool.not_eq_false _ |>.mp hc
  rw [isAlphanumeric, List.all_eq_true] at hall
  have := hall _ hmem
  revert this
  decide

theorem specValidate_bin_of_hasSlash {cand : GoStr}
    (h : goHasChar '/' cand = true) : specValidate cand = "bin".data := by
  rw [specValidate]
  rw [if_neg (by rw [notSupported_of_hasSlash h]; simp)]
  rw [if_neg (by rw [notAlnum_of_hasSlash h]; simp)]

theorem validateExt_eq_specValidate (x : GoStr) :
    validateExt x = specValidate x := by
  rw [validateExt, specValidate, isValidContentType]
  by_cases hsup : supportedContentTypes.contains x = true
  · rw [if_pos hsup, if_pos hsup]
  · rw [if_neg hsup, if_neg hsup]
    by_cases halnum : isAlphanumeric x = true ∧ 2 ≤ x.length ∧ x.length ≤ 5
    · have hcode : x ≠ [] ∧ 2 ≤ x.length ∧ x.length ≤ 5 ∧ isAlphanumeric x = true := by
        refine ⟨?_, halnum.2.1, halnum.2.2, halnum.1⟩
        intro hnil
        subst hnil
        have := halnum.2.1
        simp at this
      rw [if_pos hcode, if_pos halnum]
    · have hcode : ¬ (x ≠ [] ∧ 2 ≤ x.length ∧ x.length ≤ 5 ∧ isAlphanumeric x = true) := by
        intro hc
        exact halnum ⟨hc.2.2.2, hc.2.1, hc.2.2.1⟩
      rw [if_neg hcode, if_neg halnum]

theorem specValidate_candidates_eq (base : GoStr) :
    specValidate (ctExtCandidate base) = specValidate (specCandidate base) := by
  by_cases hs : goHasChar '/' base = true
  · rw [ctExtCandidate, if_pos hs, specCandidate, if_pos hs]
    cases hsplit : goSplitChar '/' base with
    | nil => exact absurd hsplit (goSplitChar_ne_nil '/' base)
    | cons a t =>
      cases t with
      | nil =>
        obtain ⟨_, hhas⟩ := goSplitChar_singleton hsplit
        rw [hhas] at hs
        exact absurd hs (by simp)
      | cons b t2 =>
        cases t2 with
        | nil =>
          have hafter : goAfterChar '/' base = b := goSplitChar_pair hsplit
          rw [hafter]
          simp [List.getD]
        | cons c2 t3 =>
          rw [if_neg (by simp)]
          have hcount : 2 ≤ goCountChar '/' base := by
            have hlen2 := goSplitChar_length '/' base
            rw [hsplit] at hlen2
            simp only [List.length_cons] at hlen2
            omega
          have hafterslash : goHasChar '/' (goAfterChar '/' base) = true :=
            afterChar_hasChar_of_two hcount
          have hos : ¬ goAfterChar '/' base = "octet-stream".data := by
            intro hcn
            rw [hcn] at hafterslash
            exact absurd hafterslash (by decide)
          rw [if_neg hos, specValidate_bin_of_hasSlash hs,
            specValidate_bin_of_hasSlash hafterslash]
  · have hs' : goHasChar '/' base = false := by
      cases h : goHasChar '/' base
      · rfl
      · exact absurd h hs
    rw [ctExtCandidate, if_neg (by simp [hs']), specCandidate, if_neg (by simp [hs'])]

/-- C8 (amended): for every content-type string, `getFileExtension` equals
the spec's resolution algorithm once its `;` handling is amended as the
counterexample forces (truncation only at a positive `;` index, with
whitespace trimming); the `/`-subtype extraction, the `octet-stream`
special case and the acceptance rules agree everywhere. -/
theorem c8_extension_matches_amended_spec (ct : GoStr) :
    getFileExtension ct = specResolveExtAmended ct := by
  rw [getFileExtension, parseContentType, specResolveExtAmended,
    validateExt_eq_specValidate]
  exact specValidate_candidates_eq (ctBaseType ct)

/-- C8 (counterexample): for the content type `;a/xml` — whose first `;` is
at index 0 — the code keeps the whole string as base type and resolves
`xml`, while the spec's algorithm (the text before the first `;` is the
base type) resolves `bin`. -/
theorem c8_counterexample :
    getFileExtension ";a/xml".data = "xml".data ∧
      specResolveExt ";a/xml".data = "bin".data ∧
      getFileExtension ";a/xml".data ≠ specResolveExt ";a/xml".data := by
  refine ⟨by decide, by decide, by decide⟩

/-- The filename computation shared by `saveBinaryParameterToFile` and
`updateMetadataFile` (`internal/repo/partnerdirectory.go`): the parameter ID
itself when its lower-cased form already ends with `"." + ext` (the resolved
extension taken verbatim), else `id + "." + ext`. -/
def binaryParamFilename (id contentType : GoStr) : GoStr :=
  let ext := getFileExtension contentType
  if ext ≠ [] ∧ ¬ goEndsWith (goLowerStr id) ('.' :: ext) then id ++ '.' :: ext
  else id

/-- Case-insensitive suffix comparison, as the claim reads it. -/
def endsWithCI (s suffix : GoStr) : Bool :=
  goEndsWith (goLowerStr s) (goLowerStr suffix)

theorem validateExt_ne_nil (x : GoStr) : validateExt x ≠ [] := by
  rw [validateExt]
  by_cases hsup : isValidContentType x = true
  · rw [if_pos hsup]
    rw [isValidContentType] at hsup
    have hmem : x ∈ supportedContentTypes := by simpa using hsup
    rw [supportedContentTypes] at hmem
    simp only [List.mem_cons, List.not_mem_nil, or_false] at hmem
    rcases hmem with h' | h' | h' | h' | h' | h' | h' | h' | h' <;>
      (subst h'; decide)
  · rw [if_neg hsup]
    by_cases hcode : x ≠ [] ∧ 2 ≤ x.length ∧ x.length ≤ 5 ∧ isAlphanumeric x = true
    · rw [if_pos hcode]
      exact hcode.1
    · rw [if_neg hcode]
      decide

theorem getFileExtension_ne_nil (ct : GoStr) : getFileExtension ct ≠ [] :=
  validateExt_ne_nil _

/-- C9 (amended): the filename is the ID itself if and only if the ID,
compared case-insensitively, ends with `.` followed by the resolved
extension — provided the resolved extension is already lower-case (which
holds for the whole recognized set and for `bin`).  Without that proviso the
comparison is one-sided: only the ID is lower-cased, the extension is used
verbatim, which is what the counterexample exploits. -/
theorem c9_filename_suffix_rule (id ct : GoStr)
    (hlow : goLowerStr (getFileExtension ct) = getFileExtension ct) :
    binaryParamFilename id ct = id ↔
      endsWithCI id ('.' :: getFileExtension ct) = true := by
  have hlowdot : goLowerStr ('.' :: getFileExtension ct) =
      '.' :: getFileExtension ct := by
    rw [goLowerStr, List.map_cons, ← goLowerStr, hlow]
    rfl
  rw [binaryParamFilename, endsWithCI, hlowdot]
  by_cases hend : goEndsWith (goLowerStr id) ('.' :: getFileExtension ct) = true
  · rw [if_neg (by intro hc; exact hc.2 hend)]
    simp [hend]
  · rw [if_pos ⟨getFileExtension_ne_nil ct, hend⟩]
    constructor
    · intro hc
      have hlen : (id ++ '.' :: getFileExtension ct).length = id.length := by
        rw [hc]
      rw [List.length_append, List.length_cons] at hlen
      omega
    · intro hc
      exact absurd hc hend

/-- C9 (counterexample): the resolved extension of content type `XML` is
`XML`; the ID `a.xml` ends with `.XML` under a case-insensitive comparison,
yet the code appends the extension again because it only lower-cases the ID
side, producing the doubled name `a.xml.XML`. -/
theorem c9_counterexample :
    endsWithCI "a.xml".data ('.' :: getFileExtension "XML".data) = true ∧
      binaryParamFilename "a.xml".data "XML".data = "a.xml.XML".data ∧
      binaryParamFilename "a.xml".data "XML".data ≠ "a.xml".data := by
  refine ⟨by decide, by decide, by decide⟩

theorem c9_witness :
    binaryParamFilename "a.xml".data "xml".data = "a.xml".data :=
  (c9_filename_suffix_rule "a.xml".data "xml".data (by decide)).mpr (by decide)

/-- Substring containment, modelling `strings.Contains` for a multi-character
pattern. -/
def goContainsSeq (pat : GoStr) : GoStr → Bool
  | [] => List.isPrefixOf pat []
  | c :: rest => List.isPrefixOf pat (c :: rest) || goContainsSeq pat rest

/-- Split a string at the leftmost occurrence of a nonempty separator:
`some (before, after)` with the separator removed, or `none` when the
separator does not occur. -/
def breakOnSeq (sep : GoStr) : GoStr → Option (GoStr × GoStr)
  | [] => none
  | c :: rest =>
    if List.isPrefixOf sep (c :: rest) then
      some ([], List.drop sep.length (c :: rest))
    else
      match breakOnSeq sep rest with
      | none => none
      | some (b, a) => some (c :: b, a)

/-- `strings.Split` for a nonempty separator, with explicit fuel; every
recursive step removes at least the separator from the string, so fuel
`s.length` (supplied by `goSplitSeq`) always suffices. -/
def goSplitSeqFuel (sep : GoStr) : Nat → GoStr → List GoStr
  | 0, s => [s]
  | fuel + 1, s =>
    match breakOnSeq sep s with
    | none => [s]
    | some (b, a) => b :: goSplitSeqFuel sep fuel a

/-- Model of `strings.Split(s, sep)` for a nonempty separator. -/
def goSplitSeq (sep s : GoStr) : List GoStr :=
  goSplitSeqFuel sep s.length s

/-- Model of `strings.Join`. -/
def goJoin (sep : GoStr) : List GoStr → GoStr
  | [] => []
  | [x] => x
  | x :: xs => x ++ sep ++ goJoin sep xs

/-- A separator with no nontrivial self-overlap: no shift of the separator
against itself matches.  Both line separators used by the manifest
rewriter (`\n` and `\r\n`) satisfy this, which is what makes re-splitting a
joined line list unambiguous. -/
def noSelfOverlap (sep : GoStr) : Prop :=
  ∀ k, 0 < k → k < sep.length →
    List.drop k sep ≠ List.take (sep.length - k) sep

theorem isPrefixOf_append_self (l t : GoStr) :
    List.isPrefixOf l (l ++ t) = true := by
  rw [List.isPrefixOf_iff_prefix]
  exact List.prefix_append l t

theorem isPrefixOf_append_of_le {p q : GoStr} (z : GoStr)
    (h : p.length ≤ q.length) :
    List.isPrefixOf p (q ++ z) = List.isPrefixOf p q := by
  induction p generalizing q with
  | nil => simp [List.isPrefixOf]
  | cons a p' ih =>
    cases q with
    | nil => simp at h
    | cons b q' =>
      show (a == b && List.isPrefixOf p' (q' ++ z)) = (a == b && List.isPrefixOf p' q')
      rw [ih (by simpa using h)]

theorem breakOnSeq_decomp {sep s b a : GoStr}
    (h : breakOnSeq sep s = some (b, a)) : s = b ++ sep ++ a := by
  induction s generalizing b a with
  | nil => simp [breakOnSeq] at h
  | cons c rest ih =>
    rw [breakOnSeq] at h
    by_cases hp : List.isPrefixOf sep (c :: rest) = true
    · rw [if_pos hp] at h
      injection h with h1
      injection h1 with hb ha
      obtain ⟨t, ht⟩ := List.isPrefixOf_iff_prefix.mp hp
      subst hb
      rw [← ha, ← ht, List.nil_append, List.drop_left]
    · rw [if_neg hp] at h
      cases hb : breakOnSeq sep rest with
      | none => rw [hb] at h; exact absurd h (by simp)
      | some pa =>
        obtain ⟨b', a'⟩ := pa
        rw [hb] at h
        injection h with h1
        injection h1 with hb' ha'
        subst ha'
        rw [← hb']
        have := ih hb
        rw [List.cons_append, List.cons_append, ← this]

theorem breakOnSeq_none_iff {sep s : GoStr} (hsep : sep ≠ []) :
    breakOnSeq sep s = none ↔ goContainsSeq sep s = false := by
  induction s with
  | nil =>
    rw [breakOnSeq, goContainsSeq]
    cases sep with
    | nil => exact absurd rfl hsep
    | cons c t => simp [List.isPrefixOf]
  | cons c rest ih =>
    rw [breakOnSeq, goContainsSeq]
    by_cases hp : List.isPrefixOf sep (c :: rest) = true
    · rw [if_pos hp, hp]
      simp
    · have hp' : List.isPrefixOf sep (c :: rest) = false := by
        cases h : List.isPrefixOf sep (c :: rest)
        · rfl
        · exact absurd h hp
      rw [if_neg hp, hp']
      cases hb : breakOnSeq sep rest with
      | none =>
        simp [ih.mp hb]
      | some pa =>
        obtain ⟨b', a'⟩ := pa
        constructor
        · intro hc
          exact absurd hc (by simp)
        · intro hc
          simp only [Bool.false_or] at hc
          rw [ih.mpr hc] at hb
          exact absurd hb (by simp)

theorem breakOnSeq_fst_free {sep s b a : GoStr} (hsep : sep ≠ [])
    (h : breakOnSeq sep s = some (b, a)) : goContainsSeq sep b = false := by
  induction s generalizing b a with
  | nil => simp [breakOnSeq] at h
  | cons c rest ih =>
    rw [breakOnSeq] at h
    by_cases hp : List.isPrefixOf sep (c :: rest) = true
    · rw [if_pos hp] at h
      injection h with h1
      injection h1 with hb _
      subst hb
      rw [goContainsSeq]
      cases hs : sep with
      | nil => exact absurd hs hsep
      | cons x t => simp [List.isPrefixOf]
    · rw [if_neg hp] at h
      cases hbk : breakOnSeq sep rest with
      | none => rw [hbk] at h; exact absurd h (by simp)
      | some pa =>
        obtain ⟨b', a'⟩ := pa
        rw [hbk] at h
        injection h with h1
        injection h1 with hb' ha'
        subst hb'
        rw [goContainsSeq]
        have hfree' := ih hbk
        have hnp : List.isPrefixOf sep (c :: b') = false := by
          cases hx : List.isPrefixOf sep (c :: b')
          · rfl
          · exfalso
            have hpre : sep <+: (c :: b') := List.isPrefixOf_iff_prefix.mp hx
            have hdec := breakOnSeq_decomp hbk
            have hpre2 : (c :: b') <+: (c :: rest) := by
              refine ⟨sep ++ a', ?_⟩
              rw [hdec]
              simp
            have : sep <+: (c :: rest) := hpre.trans hpre2
            rw [← List.isPrefixOf_iff_prefix] at this
            exact hp this
        rw [hnp, hfree']
        rfl

theorem goContainsSeq_of_isPrefixOf {sep s : GoStr}
    (h : List.isPrefixOf sep s = true) : goContainsSeq sep s = true := by
  cases s with
  | nil =>
    rw [goContainsSeq]
    exact h
  | cons c rest =>
    rw [goContainsSeq, h]
    rfl

theorem breakOnSeq_append {sep : GoStr} (hsep : sep ≠ [])
    (hov : noSelfOverlap sep) :
    ∀ (p tail : GoStr), goContainsSeq sep p = false →
      breakOnSeq sep (p ++ (sep ++ tail)) = some (p, tail) := by
  intro p
  induction p with
  | nil =>
    intro tail _
    rw [List.nil_append]
    cases hs : sep with
    | nil => exact absurd hs hsep
    | cons c t =>
      subst hs
      show breakOnSeq (c :: t) (c :: (t ++ tail)) = some ([], tail)
      rw [breakOnSeq]
      rw [if_pos (show List.isPrefixOf (c :: t) (c :: (t ++ tail)) = true from
        isPrefixOf_append_self (c :: t) tail)]
      rw [show List.drop (c :: t).length (c :: (t ++ tail)) = tail from
        List.drop_left (c :: t) tail]
  | cons c p' ih =>
    intro tail hfree
    have hfree' : goContainsSeq sep p' = false := by
      rw [goContainsSeq] at hfree
      rcases Bool.or_eq_false_iff.mp hfree with ⟨_, h2⟩
      exact h2
    have hnp : List.isPrefixOf sep (c :: (p' ++ (sep ++ tail))) = false := by
      cases hx : List.isPrefixOf sep (c :: (p' ++ (sep ++ tail)))
      · rfl
      · exfalso
        have hpre : sep <+: ((c :: p') ++ (sep ++ tail)) :=
          List.isPrefixOf_iff_prefix.mp hx
        have htake := List.prefix_iff_eq_take.mp hpre
        by_cases hlen : sep.length ≤ (c :: p').length
        · have hsep2 : sep = List.take sep.length (c :: p') := by
            conv_lhs => rw [htake]
            rw [List.take_append_eq_append_take,
              Nat.sub_eq_zero_of_le hlen, List.take_zero, List.append_nil]
          have hpre2 : sep <+: (c :: p') := by
            rw [hsep2]
            exact List.take_prefix _ _
          rw [← List.isPrefixOf_iff_prefix] at hpre2
          have := goContainsSeq_of_isPrefixOf hpre2
          rw [hfree] at this
          exact absurd this (by simp)
        · push_neg at hlen
          have heq : sep =
              (c :: p') ++ List.take (sep.length - (c :: p').length) sep := by
            conv_lhs => rw [htake]
            rw [List.take_append_eq_append_take,
              List.take_of_length_le (Nat.le_of_lt hlen),
              List.take_append_eq_append_take,
              Nat.sub_eq_zero_of_le (Nat.sub_le _ _),
              List.take_zero, List.append_nil]
          have hdrop : List.drop (c :: p').length sep =
              List.take (sep.length - (c :: p').length) sep := by
            conv_lhs => rw [heq]
            rw [List.drop_left]
          exact hov (c :: p').length (by simp) hlen hdrop
    show breakOnSeq sep (c :: (p' ++ (sep ++ tail))) = some (c :: p', tail)
    rw [breakOnSeq, if_neg (by simp [hnp]), ih tail hfree']

theorem goContainsSeq_nil {sep : GoStr} (hsep : sep ≠ []) :
    goContainsSeq sep [] = false := by
  rw [goContainsSeq]
  cases sep with
  | nil => exact absurd rfl hsep
  | cons c t => rfl

theorem goSplitSeqFuel_ne_nil (sep : GoStr) (fuel : Nat) (s : GoStr) :
    goSplitSeqFuel sep fuel s ≠ [] := by
  cases fuel with
  | zero => simp [goSplitSeqFuel]
  | succ f =>
    rw [goSplitSeqFuel]
    cases breakOnSeq sep s with
    | none => simp
    | some pa => obtain ⟨b, a⟩ := pa; simp

theorem goSplitSeqFuel_free {sep : GoStr} (hsep : sep ≠ []) :
    ∀ (fuel : Nat) (s : GoStr), s.length ≤ fuel →
      ∀ part ∈ goSplitSeqFuel sep fuel s, goContainsSeq sep part = false := by
  intro fuel
  induction fuel with
  | zero =>
    intro s hlen part hmem
    have : s = [] := List.length_eq_zero.mp (Nat.le_zero.mp hlen)
    subst this
    rw [goSplitSeqFuel] at hmem
    simp at hmem
    subst hmem
    exact goContainsSeq_nil hsep
  | succ f ih =>
    intro s hlen part hmem
    rw [goSplitSeqFuel] at hmem
    cases hb : breakOnSeq sep s with
    | none =>
      rw [hb] at hmem
      simp at hmem
      subst hmem
      exact (breakOnSeq_none_iff hsep).mp hb
    | some pa =>
      obtain ⟨b, a⟩ := pa
      rw [hb] at hmem
      rcases List.mem_cons.mp hmem with heq | hmem'
      · subst heq
        exact breakOnSeq_fst_free hsep hb
      · have hdec := breakOnSeq_decomp hb
        have hlena : a.length ≤ f := by
          have : s.length = b.length + sep.length + a.length := by
            rw [hdec]
            simp only [List.length_append]
          have hslen : 1 ≤ sep.length := by
            cases sep with
            | nil => exact absurd rfl hsep
            | cons _ _ => simp
          omega
        exact ih a hlena part hmem'

theorem goSplitSeq_free {sep : GoStr} (hsep : sep ≠ []) (s : GoStr) :
    ∀ part ∈ goSplitSeq sep s, goContainsSeq sep part = false :=
  goSplitSeqFuel_free hsep s.length s (le_refl _)

theorem goSplitSeqFuel_goJoin {sep : GoStr} (hsep : sep ≠ [])
    (hov : noSelfOverlap sep) :
    ∀ (parts : List GoStr) (fuel : Nat), parts ≠ [] →
      (∀ part ∈ parts, goContainsSeq sep part = false) →
      (goJoin sep parts).length ≤ fuel →
      goSplitSeqFuel sep fuel (goJoin sep parts) = parts := by
  intro parts
  induction parts with
  | nil => intro fuel hp _ _; exact absurd rfl hp
  | cons x rest ih =>
    intro fuel _ hfree hlen
    cases rest with
    | nil =>
      have hxfree : goContainsSeq sep x = false := hfree x (by simp)
      have hnone : breakOnSeq sep x = none := (breakOnSeq_none_iff hsep).mpr hxfree
      cases fuel with
      | zero => rw [goJoin, goSplitSeqFuel]
      | succ f => rw [goJoin, goSplitSeqFuel, hnone]
    | cons y rest' =>
      have hjoin : goJoin sep (x :: y :: rest') =
          x ++ (sep ++ goJoin sep (y :: rest')) := by
        show x ++ sep ++ goJoin sep (y :: rest') =
          x ++ (sep ++ goJoin sep (y :: rest'))
        rw [List.append_assoc]
      have hslen : 1 ≤ sep.length := by
        cases sep with
        | nil => exact absurd rfl hsep
        | cons _ _ => simp
      cases fuel with
      | zero =>
        exfalso
        rw [hjoin] at hlen
        simp only [List.length_append, Nat.le_zero] at hlen
        omega
      | succ f =>
        rw [hjoin, goSplitSeqFuel,
          breakOnSeq_append hsep hov x (goJoin sep (y :: rest'))
            (hfree x (by simp))]
        have hlen' : (goJoin sep (y :: rest')).length ≤ f := by
          rw [hjoin] at hlen
          simp only [List.length_append] at hlen
          omega
        dsimp only
        rw [ih f (by simp) (fun part hpart => hfree part (by simp [hpart])) hlen']

theorem goSplitSeq_goJoin {sep : GoStr} (hsep : sep ≠ [])
    (hov : noSelfOverlap sep) (parts : List GoStr) (hp : parts ≠ [])
    (hfree : ∀ part ∈ parts, goContainsSeq sep part = false) :
    goSplitSeq sep (goJoin sep parts) = parts :=
  goSplitSeqFuel_goJoin hsep hov parts (goJoin sep parts).length hp hfree (le_refl _)

theorem goJoin_append_singleton (sep z : GoStr) :
    ∀ (parts : List GoStr), parts ≠ [] →
      goJoin sep (parts ++ [z]) = goJoin sep parts ++ sep ++ z := by
  intro parts
  induction parts with
  | nil => intro hp; exact absurd rfl hp
  | cons x rest ih =>
    intro _
    cases rest with
    | nil => rfl
    | cons y rest' =>
      show x ++ sep ++ goJoin sep ((y :: rest') ++ [z]) =
        (x ++ sep ++ goJoin sep (y :: rest')) ++ sep ++ z
      rw [ih (by simp)]
      simp [List.append_assoc]

theorem goEndsWith_append_self (x sep : GoStr) :
    goEndsWith (x ++ sep) sep = true := by
  rw [goEndsWith, List.reverse_append]
  exact isPrefixOf_append_self sep.reverse x.reverse

theorem mem_of_goContainsSeq {sep s : GoStr}
    (h : goContainsSeq sep s = true) : ∀ c ∈ sep, c ∈ s := by
  induction s with
  | nil =>
    rw [goContainsSeq] at h
    cases sep with
    | nil => simp
    | cons x t => exact absurd h (by simp [List.isPrefixOf])
  | cons d rest ih =>
    rw [goContainsSeq] at h
    rcases Bool.or_eq_true_iff.mp h with hpre | hcont
    · have := List.isPrefixOf_iff_prefix.mp hpre
      intro c hc
      exact this.subset hc
    · intro c hc
      exact List.mem_cons_of_mem _ (ih hcont c hc)

/-- The right-trimming half of `strings.TrimSpace`. -/
def goTrimRight (s : GoStr) : GoStr :=
  ((s.reverse.dropWhile goIsSpace)).reverse

theorem goTrimSpace_eq (s : GoStr) :
    goTrimSpace s = goTrimRight (s.dropWhile goIsSpace) := rfl

theorem goTrimRight_append (a b : GoStr) :
    goTrimRight (a ++ b) =
      if goTrimRight b = [] then goTrimRight a else a ++ goTrimRight b := by
  rw [goTrimRight, List.reverse_append, List.dropWhile_append]
  by_cases hb : (List.dropWhile goIsSpace b.reverse).isEmpty = true
  · rw [if_pos hb]
    rw [List.isEmpty_iff] at hb
    have hbz : goTrimRight b = [] := by
      rw [goTrimRight, hb]
      rfl
    rw [if_pos hbz]
    rfl
  · rw [if_neg hb]
    have hbz : goTrimRight b ≠ [] := by
      intro hc
      rw [goTrimRight] at hc
      have := congrArg List.reverse hc
      rw [List.reverse_reverse] at this
      rw [List.isEmpty_iff] at hb
      exact hb this
    rw [if_neg hbz, List.reverse_append, List.reverse_reverse, goTrimRight]

theorem goDropWhile_cons_of_neg {p : Char → Bool} {x : Char} {t : GoStr}
    (h : p x = false) : List.dropWhile p (x :: t) = x :: t := by
  rw [List.dropWhile_cons, h]
  simp

/-- The lower-cased header token `bundle-name:`. -/
def bundleNameHeader : GoStr := "bundle-name:".data

/-- The lower-cased header token `bundle-symbolicname:`. -/
def bundleSymbolicHeader : GoStr := "bundle-symbolicname:".data

/-- The per-line match of `UpdateManifestBundleName`: the trimmed,
lower-cased line starts with `bundle-name:`. -/
def isBundleNameLine (line : GoStr) : Bool :=
  List.isPrefixOf bundleNameHeader (goLowerStr (goTrimSpace line))

/-- The per-line match for `bundle-symbolicname:`. -/
def isSymbolicNameLine (line : GoStr) : Bool :=
  List.isPrefixOf bundleSymbolicHeader (goLowerStr (goTrimSpace line))

/-- The canonical replacement line `Bundle-Name: <bundleName>`. -/
def canonBundleName (bundleName : GoStr) : GoStr :=
  "Bundle-Name: ".data ++ bundleName

/-- The canonical replacement line `Bundle-SymbolicName: <symbolicName>`. -/
def canonSymbolicName (symbolicName : GoStr) : GoStr :=
  "Bundle-SymbolicName: ".data ++ symbolicName

/-- The per-line loop of `UpdateManifestBundleName`
(`internal/deploy/utils.go`): replace matching lines by their canonical
form and record which headers were found. -/
def updateManifestLines (symbolicName bundleName : GoStr) :
    List GoStr → List GoStr × Bool × Bool
  | [] => ([], false, false)
  | line :: rest =>
    let r := updateManifestLines symbolicName bundleName rest
    if isBundleNameLine line then
      (canonBundleName bundleName :: r.1, true, r.2.2)
    else if isSymbolicNameLine line then
      (canonSymbolicName symbolicName :: r.1, r.2.1, true)
    else
      (line :: r.1, r.2.1, r.2.2)

/-- The line-ending detection of `UpdateManifestBundleName`: CRLF when the
raw content contains `\r\n`, else LF. -/
def detectEol (content : GoStr) : GoStr :=
  if goContainsSeq "\r\n".data content then "\r\n".data else "\n".data

/-- The line list `UpdateManifestBundleName` writes: the rewritten lines,
with `Bundle-Name` and then `Bundle-SymbolicName` appended when absent. -/
def manifestLinesOut (symbolicName bundleName : GoStr)
    (lines : List GoStr) : List GoStr :=
  let r := updateManifestLines symbolicName bundleName lines
  let result := if r.2.1 then r.1 else r.1 ++ [canonBundleName bundleName]
  if r.2.2 then result else result ++ [canonSymbolicName symbolicName]

/-- `UpdateManifestBundleName` (`internal/deploy/utils.go`), as the pure
content-to-content function: detect the line-ending style, split, rewrite
the lines, join with the detected ending and ensure a final terminator. -/
def UpdateManifestBundleName (content symbolicName bundleName : GoStr) : GoStr :=
  let lineEnding := detectEol content
  let result := manifestLinesOut symbolicName bundleName
    (goSplitSeq lineEnding content)
  let finalContent := goJoin lineEnding result
  if ¬ goEndsWith finalContent lineEnding then finalContent ++ lineEnding
  else finalContent

theorem isBundleNameLine_canon (name : GoStr) :
    isBundleNameLine (canonBundleName name) = true := by
  have hsplit : canonBundleName name = "Bundle-Name:".data ++ (' ' :: name) := rfl
  rw [isBundleNameLine, hsplit, goTrimSpace_eq]
  rw [show ("Bundle-Name:".data ++ (' ' :: name)) =
    'B' :: ("undle-Name:".data ++ (' ' :: name)) from rfl]
  rw [goDropWhile_cons_of_neg (by decide)]
  rw [show ('B' :: ("undle-Name:".data ++ (' ' :: name))) =
    "Bundle-Name:".data ++ (' ' :: name) from rfl]
  rw [goTrimRight_append]
  by_cases hz : goTrimRight (' ' :: name) = []
  · rw [if_pos hz]
    decide
  · rw [if_neg hz]
    rw [goLowerStr, List.map_append]
    rw [show List.map goToLowerChar "Bundle-Name:".data = bundleNameHeader from by decide]
    exact isPrefixOf_append_self _ _

theorem isBundleNameLine_canonSym (sym : GoStr) :
    isBundleNameLine (canonSymbolicName sym) = false := by
  have hsplit : canonSymbolicName sym =
    "Bundle-SymbolicName:".data ++ (' ' :: sym) := rfl
  rw [isBundleNameLine, hsplit, goTrimSpace_eq]
  rw [show ("Bundle-SymbolicName:".data ++ (' ' :: sym)) =
    'B' :: ("undle-SymbolicName:".data ++ (' ' :: sym)) from rfl]
  rw [goDropWhile_cons_of_neg (by decide)]
  rw [show ('B' :: ("undle-SymbolicName:".data ++ (' ' :: sym))) =
    "Bundle-SymbolicName:".data ++ (' ' :: sym) from rfl]
  rw [goTrimRight_append]
  by_cases hz : goTrimRight (' ' :: sym) = []
  · rw [if_pos hz]
    decide
  · rw [if_neg hz]
    rw [goLowerStr, List.map_append]
    rw [show List.map goToLowerChar "Bundle-SymbolicName:".data =
      "bundle-symbolicname:".data from by decide]
    rw [isPrefixOf_append_of_le _ (by decide)]
    decide

theorem updateManifestLines_filter (symbolicName bundleName : GoStr)
    (lines : List GoStr) :
    (updateManifestLines symbolicName bundleName lines).1.filter isBundleNameLine =
      List.replicate (lines.countP isBundleNameLine) (canonBundleName bundleName) := by
  induction lines with
  | nil => simp [updateManifestLines]
  | cons line rest ih =>
    rw [updateManifestLines, List.countP_cons]
    by_cases h1 : isBundleNameLine line = true
    · simp only [h1, if_pos]
      rw [List.filter_cons]
      simp only [isBundleNameLine_canon, if_pos]
      rw [ih]
      simp [List.replicate_succ]
    · have h1' : isBundleNameLine line = false := by
        cases h : isBundleNameLine line
        · rfl
        · exact absurd h h1
      rw [h1']
      by_cases h2 : isSymbolicNameLine line = true
      · simp only [h1', Bool.false_eq_true, if_false, h2, if_pos]
        rw [List.filter_cons]
        simp only [isBundleNameLine_canonSym, Bool.false_eq_true, if_false]
        rw [ih]
        simp
      · have h2' : isSymbolicNameLine line = false := by
          cases h : isSymbolicNameLine line
          · rfl
          · exact absurd h h2
        simp only [h1', h2', Bool.false_eq_true, if_false]
        rw [List.filter_cons]
        simp only [h1', Bool.false_eq_true, if_false]
        rw [ih]
        simp

theorem updateManifestLines_nameFound (symbolicName bundleName : GoStr)
    (lines : List GoStr) :
    (updateManifestLines symbolicName bundleName lines).2.1 =
      lines.any isBundleNameLine := by
  induction lines with
  | nil => simp [updateManifestLines]
  | cons line rest ih =>
    rw [updateManifestLines, List.any_cons]
    by_cases h1 : isBundleNameLine line = true
    · simp [h1]
    · have h1' : isBundleNameLine line = false := by
        cases h : isBundleNameLine line
        · rfl
        · exact absurd h h1
      by_cases h2 : isSymbolicNameLine line = true
      · simp [h1', h2, ih]
      · have h2' : isSymbolicNameLine line = false := by
          cases h : isSymbolicNameLine line
          · rfl
          · exact absurd h h2
        simp [h1', h2', ih]

theorem updateManifestLines_length (symbolicName bundleName : GoStr)
    (lines : List GoStr) :
    (updateManifestLines symbolicName bundleName lines).1.length = lines.length := by
  induction lines with
  | nil => simp [updateManifestLines]
  | cons line rest ih =>
    rw [updateManifestLines]
    by_cases h1 : isBundleNameLine line = true
    · simp [h1, ih]
    · have h1' : isBundleNameLine line = false := by
        cases h : isBundleNameLine line
        · rfl
        · exact absurd h h1
      by_cases h2 : isSymbolicNameLine line = true
      · simp [h1', h2, ih]
      · have h2' : isSymbolicNameLine line = false := by
          cases h : isSymbolicNameLine line
          · rfl
          · exact absurd h h2
        simp [h1', h2', ih]

theorem updateManifestLines_mem {symbolicName bundleName : GoStr}
    {lines : List GoStr} {part : GoStr}
    (h : part ∈ (updateManifestLines symbolicName bundleName lines).1) :
    part ∈ lines ∨ part = canonBundleName bundleName ∨
      part = canonSymbolicName symbolicName := by
  induction lines with
  | nil => simp [updateManifestLines] at h
  | cons line rest ih =>
    rw [updateManifestLines] at h
    by_cases h1 : isBundleNameLine line = true
    · simp only [h1, if_pos] at h
      rcases List.mem_cons.mp h with heq | hmem
      · exact Or.inr (Or.inl heq)
      · rcases ih hmem with ha | hb
        · exact Or.inl (List.mem_cons_of_mem _ ha)
        · exact Or.inr hb
    · have h1' : isBundleNameLine line = false := by
        cases hx : isBundleNameLine line
        · rfl
        · exact absurd hx h1
      by_cases h2 : isSymbolicNameLine line = true
      · simp only [h1', Bool.false_eq_true, if_false, h2, if_pos] at h
        rcases List.mem_cons.mp h with heq | hmem
        · exact Or.inr (Or.inr heq)
        · rcases ih hmem with ha | hb
          · exact Or.inl (List.mem_cons_of_mem _ ha)
          · exact Or.inr hb
      · have h2' : isSymbolicNameLine line = false := by
          cases hx : isSymbolicNameLine line
          · rfl
          · exact absurd hx h2
        simp only [h1', h2', Bool.false_eq_true, if_false] at h
        rcases List.mem_cons.mp h with heq | hmem
        · exact Or.inl (heq ▸ List.mem_cons_self _ _)
        · rcases ih hmem with ha | hb
          · exact Or.inl (List.mem_cons_of_mem _ ha)
          · exact Or.inr hb

theorem manifestLinesOut_filter_one (symbolicName bundleName : GoStr)
    (lines : List GoStr) (h : lines.countP isBundleNameLine = 1) :
    (manifestLinesOut symbolicName bundleName lines).filter isBundleNameLine =
      [canonBundleName bundleName] := by
  have hfound : (updateManifestLines symbolicName bundleName lines).2.1 = true := by
    rw [updateManifestLines_nameFound, List.any_eq_true]
    exact List.countP_pos_iff.mp (by omega)
  rw [manifestLinesOut]
  simp only [hfound, if_true]
  by_cases hsf : (updateManifestLines symbolicName bundleName lines).2.2 = true
  · simp only [hsf, if_true]
    rw [updateManifestLines_filter, h, List.replicate_one]
  · have hsf' : (updateManifestLines symbolicName bundleName lines).2.2 = false := by
      cases hx : (updateManifestLines symbolicName bundleName lines).2.2
      · rfl
      · exact absurd hx hsf
    simp only [hsf', Bool.false_eq_true, if_false]
    rw [List.filter_append, updateManifestLines_filter, h, List.replicate_one]
    simp [isBundleNameLine_canonSym]

theorem manifestLinesOut_zero_shape (symbolicName bundleName : GoStr)
    (lines : List GoStr) (h : lines.countP isBundleNameLine = 0) :
    ∃ tailL,
      manifestLinesOut symbolicName bundleName lines =
        (updateManifestLines symbolicName bundleName lines).1 ++
          ([canonBundleName bundleName] ++ tailL) ∧
      tailL.filter isBundleNameLine = [] := by
  have hnf : (updateManifestLines symbolicName bundleName lines).2.1 = false := by
    rw [updateManifestLines_nameFound, List.any_eq_false]
    intro x hx
    have := List.countP_eq_zero.mp h x hx
    simpa using this
  rw [manifestLinesOut]
  simp only [hnf, Bool.false_eq_true, if_false]
  by_cases hsf : (updateManifestLines symbolicName bundleName lines).2.2 = true
  · refine ⟨[], ?_, rfl⟩
    simp [hsf]
  · have hsf' : (updateManifestLines symbolicName bundleName lines).2.2 = false := by
      cases hx : (updateManifestLines symbolicName bundleName lines).2.2
      · rfl
      · exact absurd hx hsf
    refine ⟨[canonSymbolicName symbolicName], ?_, ?_⟩
    · simp [hsf', List.append_assoc]
    · simp [isBundleNameLine_canonSym]

theorem manifestLinesOut_filter_zero (symbolicName bundleName : GoStr)
    (lines : List GoStr) (h : lines.countP isBundleNameLine = 0) :
    (manifestLinesOut symbolicName bundleName lines).filter isBundleNameLine =
      [canonBundleName bundleName] := by
  obtain ⟨tailL, heq, htail⟩ := manifestLinesOut_zero_shape symbolicName bundleName lines h
  rw [heq, List.filter_append, List.filter_append, updateManifestLines_filter, h,
    List.replicate_zero, htail]
  simp [isBundleNameLine_canon]

theorem manifestLinesOut_mem {symbolicName bundleName : GoStr}
    {lines : List GoStr} {part : GoStr}
    (h : part ∈ manifestLinesOut symbolicName bundleName lines) :
    part ∈ lines ∨ part = canonBundleName bundleName ∨
      part = canonSymbolicName symbolicName := by
  rw [manifestLinesOut] at h
  by_cases hnf : (updateManifestLines symbolicName bundleName lines).2.1 = true <;>
    by_cases hsf : (updateManifestLines symbolicName bundleName lines).2.2 = true <;>
    simp only [hnf, hsf, if_true, if_false, Bool.false_eq_true,
      Bool.not_eq_true] at h <;>
    [skip; skip; skip; skip] <;>
    first
    | exact updateManifestLines_mem h
    | (rcases List.mem_append.mp h with hin | hin
       · exact updateManifestLines_mem hin
       · simp at hin
         simp [hin])
    | (rcases List.mem_append.mp h with hin | hin
       · rcases List.mem_append.mp hin with hin2 | hin2
         · exact updateManifestLines_mem hin2
         · simp at hin2
           simp [hin2]
       · simp at hin
         simp [hin])

theorem manifestLinesOut_ne_nil (symbolicName bundleName : GoStr)
    {lines : List GoStr} (hlines : lines ≠ []) :
    manifestLinesOut symbolicName bundleName lines ≠ [] := by
  have hr : (updateManifestLines symbolicName bundleName lines).1 ≠ [] := by
    intro hc
    have hlen := updateManifestLines_length symbolicName bundleName lines
    rw [hc] at hlen
    exact hlines (List.length_eq_zero.mp hlen.symm)
  rw [manifestLinesOut]
  by_cases hnf : (updateManifestLines symbolicName bundleName lines).2.1 = true <;>
    by_cases hsf : (updateManifestLines symbolicName bundleName lines).2.2 = true <;>
    simp [hnf, hsf, hr]

theorem split_out_shape (sep : GoStr) (hsep : sep ≠ []) (hov : noSelfOverlap sep)
    (R : List GoStr) (hne : R ≠ [])
    (hfree : ∀ part ∈ R, goContainsSeq sep part = false) :
    ∃ extra : List GoStr,
      goSplitSeq sep (if ¬ goEndsWith (goJoin sep R) sep then
        goJoin sep R ++ sep else goJoin sep R) = R ++ extra ∧
      extra.filter isBundleNameLine = [] ∧
      goEndsWith (if ¬ goEndsWith (goJoin sep R) sep then
        goJoin sep R ++ sep else goJoin sep R) sep = true := by
  by_cases hend : goEndsWith (goJoin sep R) sep = true
  · refine ⟨[], ?_, rfl, ?_⟩
    · rw [if_neg (by simp [hend]), List.append_nil]
      exact goSplitSeq_goJoin hsep hov R hne hfree
    · rw [if_neg (by simp [hend])]
      exact hend
  · refine ⟨[[]], ?_, by decide, ?_⟩
    · rw [if_pos (by simp [hend])]
      have hjoin2 : goJoin sep R ++ sep = goJoin sep (R ++ [[]]) := by
        rw [goJoin_append_singleton sep [] R hne, List.append_nil]
      rw [hjoin2]
      refine goSplitSeq_goJoin hsep hov (R ++ [[]]) (by simp) ?_
      intro part hp
      rcases List.mem_append.mp hp with hin | hin
      · exact hfree part hin
      · simp at hin
        rw [hin]
        exact goContainsSeq_nil hsep
    · rw [if_pos (by simp [hend])]
      exact goEndsWith_append_self _ _

/-- C7: for any manifest content — with replacement values free of line
terminators — the rewritten output ends with a terminator of the detected
line-ending style (CRLF if the input contained CRLF, else LF); when the
input has exactly one `Bundle-Name:` line the output has exactly one, the
canonical `Bundle-Name: <bundleName>`; and when the input has none, the
output still has exactly that one line and it sits right after all the
original lines (appended at the end). -/
theorem c7_update_manifest_bundle_name
    (content symbolicName bundleName : GoStr)
    (hn1 : '\r' ∉ bundleName) (hn2 : '\n' ∉ bundleName)
    (hs1 : '\r' ∉ symbolicName) (hs2 : '\n' ∉ symbolicName) :
    goEndsWith (UpdateManifestBundleName content symbolicName bundleName)
      (detectEol content) = true ∧
    ((goSplitSeq (detectEol content) content).countP isBundleNameLine = 1 →
      (goSplitSeq (detectEol content)
        (UpdateManifestBundleName content symbolicName bundleName)).filter
          isBundleNameLine = [canonBundleName bundleName]) ∧
    ((goSplitSeq (detectEol content) content).countP isBundleNameLine = 0 →
      (goSplitSeq (detectEol content)
        (UpdateManifestBundleName content symbolicName bundleName)).filter
          isBundleNameLine = [canonBundleName bundleName] ∧
      ((goSplitSeq (detectEol content)
        (UpdateManifestBundleName content symbolicName bundleName)).drop
          (goSplitSeq (detectEol content) content).length).head? =
        some (canonBundleName bundleName)) := by
  have hcase : detectEol content = "\r\n".data ∨ detectEol content = "\n".data := by
    rw [detectEol]
    by_cases h : goContainsSeq "\r\n".data content = true
    · exact Or.inl (if_pos h)
    · exact Or.inr (if_neg h)
  have hsep : detectEol content ≠ [] := by
    rcases hcase with h | h <;> rw [h] <;> decide
  have hov : noSelfOverlap (detectEol content) := by
    rcases hcase with h | h <;> rw [h] <;> intro k hk1 hk2
    · have hl : ("\r\n".data : GoStr).length = 2 := by decide
      rw [hl] at hk2
      have hk : k = 1 := by omega
      subst hk
      decide
    · have hl : ("\n".data : GoStr).length = 1 := by decide
      rw [hl] at hk2
      omega
  have hsub : ∀ c ∈ detectEol content, c = '\r' ∨ c = '\n' := by
    rcases hcase with h | h <;> rw [h] <;> intro c hc
    · simpa using hc
    · exact Or.inr (by simpa using hc)
  have hcanonN : goContainsSeq (detectEol content)
      (canonBundleName bundleName) = false := by
    cases hx : goContainsSeq (detectEol content) (canonBundleName bundleName)
    · rfl
    · exfalso
      obtain ⟨c, t, hct⟩ : ∃ c t, detectEol content = c :: t := by
        cases hd : detectEol content with
        | nil => exact absurd hd hsep
        | cons c t => exact ⟨c, t, rfl⟩
      have hcin : c ∈ detectEol content := by rw [hct]; simp
      have hmem := mem_of_goContainsSeq hx c hcin
      rw [canonBundleName] at hmem
      rcases hsub c hcin with hc | hc <;> subst hc <;>
        rcases List.mem_append.mp hmem with hin | hin
      · revert hin; decide
      · exact hn1 hin
      · revert hin; decide
      · exact hn2 hin
  have hcanonS : goContainsSeq (detectEol content)
      (canonSymbolicName symbolicName) = false := by
    cases hx : goContainsSeq (detectEol content) (canonSymbolicName symbolicName)
    · rfl
    · exfalso
      obtain ⟨c, t, hct⟩ : ∃ c t, detectEol content = c :: t := by
        cases hd : detectEol content with
        | nil => exact absurd hd hsep
        | cons c t => exact ⟨c, t, rfl⟩
      have hcin : c ∈ detectEol content := by rw [hct]; simp
      have hmem := mem_of_goContainsSeq hx c hcin
      rw [canonSymbolicName] at hmem
      rcases hsub c hcin with hc | hc <;> subst hc <;>
        rcases List.mem_append.mp hmem with hin | hin
      · revert hin; decide
      · exact hs1 hin
      · revert hin; decide
      · exact hs2 hin
  have hlinesne : goSplitSeq (detectEol content) content ≠ [] :=
    goSplitSeqFuel_ne_nil _ _ _
  have hResNe : manifestLinesOut symbolicName bundleName
      (goSplitSeq (detectEol content) content) ≠ [] :=
    manifestLinesOut_ne_nil symbolicName bundleName hlinesne
  have hResFree : ∀ part ∈ manifestLinesOut symbolicName bundleName
      (goSplitSeq (detectEol content) content),
      goContainsSeq (detectEol content) part = false := by
    intro part hp
    rcases manifestLinesOut_mem hp with hin | hc | hc
    · exact goSplitSeq_free hsep content part hin
    · rw [hc]; exact hcanonN
    · rw [hc]; exact hcanonS
  have hUMBN : UpdateManifestBundleName content symbolicName bundleName =
      (if ¬ goEndsWith (goJoin (detectEol content)
          (manifestLinesOut symbolicName bundleName
            (goSplitSeq (detectEol content) content))) (detectEol content) then
        goJoin (detectEol content)
          (manifestLinesOut symbolicName bundleName
            (goSplitSeq (detectEol content) content)) ++ detectEol content
      else
        goJoin (detectEol content)
          (manifestLinesOut symbolicName bundleName
            (goSplitSeq (detectEol content) content))) := rfl
  obtain ⟨extra, hsplitOut, hextraF, hends⟩ :=
    split_out_shape (detectEol content) hsep hov
      (manifestLinesOut symbolicName bundleName
        (goSplitSeq (detectEol content) content)) hResNe hResFree
  rw [hUMBN]
  refine ⟨hends, ?_, ?_⟩
  · intro h1
    rw [hsplitOut, List.filter_append, hextraF, List.append_nil]
    exact manifestLinesOut_filter_one symbolicName bundleName _ h1
  · intro h0
    constructor
    · rw [hsplitOut, List.filter_append, hextraF, List.append_nil]
      exact manifestLinesOut_filter_zero symbolicName bundleName _ h0
    · obtain ⟨tailL, hReq, _⟩ :=
        manifestLinesOut_zero_shape symbolicName bundleName
          (goSplitSeq (detectEol content) content) h0
      rw [hsplitOut, hReq, List.append_assoc]
      rw [show (goSplitSeq (detectEol content) content).length =
        (updateManifestLines symbolicName bundleName
          (goSplitSeq (detectEol content) content)).1.length from
        (updateManifestLines_length _ _ _).symm]
      rw [List.drop_left]
      rfl

theorem c7_witness :
    goEndsWith (UpdateManifestBundleName "X: 1\nBundle-Name: Old\n".data
      "NewSym".data "NewName".data) (detectEol "X: 1\nBundle-Name: Old\n".data) = true ∧
    (goSplitSeq (detectEol "X: 1\nBundle-Name: Old\n".data)
      (UpdateManifestBundleName "X: 1\nBundle-Name: Old\n".data
        "NewSym".data "NewName".data)).filter isBundleNameLine =
      [canonBundleName "NewName".data] := by
  have h := c7_update_manifest_bundle_name "X: 1\nBundle-Name: Old\n".data
    "NewSym".data "NewName".data (by decide) (by decide) (by decide) (by decide)
  exact ⟨h.1, h.2.1 (by decide)⟩

end CiHelper
